import Mathlib

/-!
# Verification of the conflux in-memory prefix tree (`recon/ptree.go`, `recon/settings`)

A shallow embedding of the conflux PTree: a radix tree over bit-reversed
identifiers in `Z/P_SKS` whose nodes carry point-evaluations (svalues) of the
characteristic polynomial of the elements below them.

Modelling conventions:
* Go `int` fields are embedded as `ℤ`; loop bounds derived from them use
  `Int.toNat` (a Go `for j := 0; j < nbq; j++` loop runs zero times for
  `nbq ≤ 0`).
* Go panics are modelled as a `panic` result constructor that carries the
  state of the mutated data structure at the moment of the panic (a Go panic
  does not roll back heap mutations).  The Go `error` return channel is the
  `err` constructor; normal return with a `nil` error is `ok`.
* Recursion that is unbounded in Go (the descent may not terminate for
  adversarial configurations) is modelled with explicit fuel; running out of
  fuel yields the `hang` result, which is never a normal return.
* The `Zp`, `Bitstring` and `Zpoints` helpers live in the sibling `conflux`
  package whose source is not part of this repository snapshot; they are
  modelled from the specification where noted.
-/

/-- Fuel-driven modular exponentiation by repeated squaring
(kernel-computable; used for the Fermat inverse and primality certificates). -/
def powModAux : Nat → Nat → Nat → Nat → Nat
  | 0, _, _, n => 1 % n
  | f + 1, a, e, n =>
    if e = 0 then 1 % n
    else
      let h := powModAux f (a * a % n) (e / 2) n
      if e % 2 = 1 then h * a % n else h

/-- `powMod a e n = a ^ e % n` for exponents below `2 ^ 200`. -/
def powMod (a e n : Nat) : Nat := powModAux 200 a e n

/-- Modelled from the spec: the SKS keyserver prime, the fixed 129-bit modulus
of the reconciliation field. -/
def P_SKS : ℕ := 530512889551602322505127520352579437339

/-- Modelled from the spec: `bitlength(P_SKS)` (Go `P_SKS.BitLen()`),
the length of every navigation bitstring. -/
def pSKSBitLen : ℕ := 129

/-- The field `Z/P_SKS` of the conflux reconciliation algorithm. -/
abbrev Zp := ZMod P_SKS

/-- Modelled from the spec: the multiplicative inverse in `Zp` via Fermat
exponentiation (`a ^ (P-2)`), one of the two implementations the spec allows
for `Zp.Inv`; on `0` (the spec's *ArithmeticError* case) it returns `0`. -/
def zinv (a : Zp) : Zp := ((powMod a.val (P_SKS - 2) P_SKS : ℕ) : Zp)

/-- Modelled from the spec: `Zpoints(P_SKS, n)`, the deterministic sample
points `1, −1, 2, −2, 3, −3, …` used as evaluation abscissas. -/
def Zpoints (num : ℕ) : List Zp :=
  (List.range num).map fun k =>
    if k % 2 = 0 then ((k / 2 + 1 : ℕ) : Zp) else -((k / 2 + 1 : ℕ) : Zp)

/-- Modelled from the spec: minimal little-endian byte serialization of a
natural number (`Zp.Bytes()`), with enough fuel for any value `< 2 ^ 136`. -/
def bytesLEAux : ℕ → ℕ → List ℕ
  | 0, _ => []
  | f + 1, n => if n = 0 then [] else n % 256 :: bytesLEAux f (n / 256)

/-- Modelled from the spec: `z.Bytes()`, the canonical little-endian byte
serialization of the representative of `z` in `[0, P_SKS)` (17 bytes suffice). -/
def zpBytes (z : Zp) : List ℕ := bytesLEAux 17 z.val

/-- `ReverseBytes` from the conflux package: reverse the byte order. -/
def ReverseBytes (l : List ℕ) : List ℕ := l.reverse

/-- Modelled from the spec: a fixed-length bitstring, bit `i` being bit
`i % 8` (LSB first) of byte `i / 8` of the backing buffer. -/
structure Bitstring where
  bitLen : ℕ
  bit : ℕ → Bool

/-- Modelled from the spec: `NewBitstring(len)` followed by `SetBytes(buf)`;
bytes beyond the supplied buffer stay zero. -/
def Bitstring.ofBytes (len : ℕ) (bytes : List ℕ) : Bitstring :=
  ⟨len, fun i => Nat.testBit (bytes.getD (i / 8) 0) (i % 8)⟩

/-- The navigation bitstring of `z`:
`bs := NewBitstring(P_SKS.BitLen()); bs.SetBytes(ReverseBytes(z.Bytes()))`
as in `Insert`, `Remove`, `Find` and `split`. -/
def navOf (z : Zp) : Bitstring := Bitstring.ofBytes pSKSBitLen (ReverseBytes (zpBytes z))

/-! ## Settings (`recon` settings file) -/

def DefaultThreshMult : ℤ := 10
def DefaultBitQuantum : ℤ := 2
def DefaultMBar : ℤ := 5
def DefaultSplitThreshold : ℤ := DefaultThreshMult * DefaultMBar
def DefaultJoinThreshold : ℤ := Int.tdiv DefaultSplitThreshold 2
def DefaultNumSamples : ℤ := DefaultMBar + 1

structure Settings where
  version : String
  logName : String
  httpPort : ℤ
  reconPort : ℤ
  partners : List String
  filters : List String
  threshMult : ℤ
  bitQuantum : ℤ
  mBar : ℤ
  splitThreshold : ℤ
  joinThreshold : ℤ
  numSamples : ℤ
  gossipIntervalSecs : ℤ
  maxOutstandingReconRequests : ℤ

/-- `Settings.updateDerived`: recompute the derived configuration values.
`Int.tdiv` truncates toward zero exactly like Go integer division. -/
def Settings.updateDerived (s : Settings) : Settings :=
  let st := s.threshMult * s.mBar
  { s with splitThreshold := st, joinThreshold := Int.tdiv st 2, numSamples := s.mBar + 1 }

/-- `NewSettings`: the defaulted settings record (unlisted fields take Go
zero values) followed by `updateDerived`. -/
def NewSettings : Settings :=
  Settings.updateDerived
    { version := "experimental"
      logName := "conflux.recon"
      httpPort := 11371
      reconPort := 11370
      partners := []
      filters := []
      threshMult := DefaultThreshMult
      bitQuantum := DefaultBitQuantum
      mBar := DefaultMBar
      splitThreshold := 0
      joinThreshold := 0
      numSamples := 0
      gossipIntervalSecs := 60
      maxOutstandingReconRequests := 100 }

/-- `LoadSettings` after the config file has been parsed: the parsed values
(defaulted to `NewSettings` fields by the parser) are stored and
`updateDerived` runs last.  File I/O itself is external to this model. -/
def LoadSettings (version logName : String)
    (httpPort reconPort threshMult bitQuantum mBar gossipIntervalSecs
      maxOutstandingReconRequests : ℤ)
    (partners filters : List String) : Settings :=
  Settings.updateDerived
    { NewSettings with
      version := version
      logName := logName
      httpPort := httpPort
      reconPort := reconPort
      threshMult := threshMult
      bitQuantum := bitQuantum
      mBar := mBar
      gossipIntervalSecs := gossipIntervalSecs
      maxOutstandingReconRequests := maxOutstandingReconRequests
      partners := partners
      filters := filters }

/-! ## The tree data model (`recon/ptree.go`) -/

/-- `MemPrefixNode`: child table, element bag, element count and sample
values.  The Go struct's `parent` back-pointer and embedded tree pointer are
represented by the pure tree structure and by passing the tree explicitly. -/
inductive MemPrefixNode : Type where
  | mk (key : ℤ) (children : List MemPrefixNode) (elements : List Zp)
      (numElements : ℤ) (svalues : List Zp)

def MemPrefixNode.key : MemPrefixNode → ℤ
  | .mk k _ _ _ _ => k

def MemPrefixNode.children : MemPrefixNode → List MemPrefixNode
  | .mk _ cs _ _ _ => cs

def MemPrefixNode.elements : MemPrefixNode → List Zp
  | .mk _ _ es _ _ => es

def MemPrefixNode.numElements : MemPrefixNode → ℤ
  | .mk _ _ _ ne _ => ne

def MemPrefixNode.svalues : MemPrefixNode → List Zp
  | .mk _ _ _ _ sv => sv

def MemPrefixNode.withChildren : MemPrefixNode → List MemPrefixNode → MemPrefixNode
  | .mk k _ es ne sv, cs => .mk k cs es ne sv

def MemPrefixNode.withElements : MemPrefixNode → List Zp → MemPrefixNode
  | .mk k cs _ ne sv, es => .mk k cs es ne sv

def MemPrefixNode.withNumElements : MemPrefixNode → ℤ → MemPrefixNode
  | .mk k cs es _ sv, ne => .mk k cs es ne sv

def MemPrefixNode.withSvalues : MemPrefixNode → List Zp → MemPrefixNode
  | .mk k cs es ne _, sv => .mk k cs es ne sv

/-- `IsLeaf`: a node is a leaf iff it has no children. -/
def MemPrefixNode.IsLeaf (n : MemPrefixNode) : Bool := n.children.length == 0

/-- `MemPrefixTree`: configuration, sample points and root. -/
structure MemPrefixTree where
  splitThreshold : ℤ
  joinThreshold : ℤ
  bitQuantum : ℤ
  mBar : ℤ
  numSamples : ℤ
  points : List Zp
  root : MemPrefixNode

/-- `MemPrefixNode.init`: fresh node state — no children, no elements, count
zero and an all-ones svalue vector of length `NumSamples` (Go `make` with a
negative length would panic; `Int.toNat` is that length's value otherwise). -/
def initNode (t : MemPrefixTree) (key : ℤ) : MemPrefixNode :=
  .mk key [] [] 0 (List.replicate t.numSamples.toNat (1 : Zp))

/-- `MemPrefixTree.Init`: fields equal to zero are replaced by the default
constants, then `points` and a fresh root leaf are installed.  No validation
is performed and `Init` cannot fail. -/
def MemPrefixTree.Init (t : MemPrefixTree) : MemPrefixTree :=
  let bq := if t.bitQuantum = 0 then DefaultBitQuantum else t.bitQuantum
  let st := if t.splitThreshold = 0 then DefaultSplitThreshold else t.splitThreshold
  let jt := if t.joinThreshold = 0 then DefaultJoinThreshold else t.joinThreshold
  let mb := if t.mBar = 0 then DefaultMBar else t.mBar
  let ns := if t.numSamples = 0 then DefaultNumSamples else t.numSamples
  let t1 : MemPrefixTree :=
    { splitThreshold := st, joinThreshold := jt, bitQuantum := bq, mBar := mb,
      numSamples := ns, points := Zpoints ns.toNat, root := t.root }
  { t1 with root := initNode t1 0 }

/-! ## Navigation -/

/-- The child-index loop of `MemPrefixTree.Node`: masks `1 << j` are OR-ed in
for every set bit `bs[i + j]`, `j < nbq`. -/
def nodeChildIndex (bs : Bitstring) (nbq i : ℕ) : ℕ :=
  (List.range nbq).foldl
    (fun childIndex j => if bs.bit (i + j) then childIndex ||| (1 <<< j) else childIndex) 0

/-- The child-index loop of `NextChild`: masks `1 << i` are OR-ed in for
every set bit `bs[depth * nbq + i]`, `i < nbq`. -/
def nextChildIndex (bs : Bitstring) (nbq depth : ℕ) : ℕ :=
  (List.range nbq).foldl
    (fun childIndex i => if bs.bit (depth * nbq + i) then childIndex ||| (1 <<< i) else childIndex) 0

/-- `NextChild`: panics (`error` here, lifted to a panic by callers) on a
leaf, otherwise selects `children[childIndex]`; an index beyond the child
table is the Go index-out-of-range panic.  The pure embedding also returns
the index so that callers can write the child back. -/
def NextChild (t : MemPrefixTree) (n : MemPrefixNode) (bs : Bitstring) (depth : ℕ) :
    Except String (ℕ × MemPrefixNode) :=
  if n.IsLeaf then .error "Cannot dereference child of leaf node"
  else
    let childIndex := nextChildIndex bs t.bitQuantum.toNat depth
    match n.children[childIndex]? with
    | none => .error "index out of range"
    | some c => .ok (childIndex, c)

/-- Go `1 << uint(bq)` for a 64-bit `int`, used as the child count in
`split`: `2 ^ bq` for `0 ≤ bq < 63`; for `bq = 63` the shift overflows to a
negative value and for `bq ≥ 64` or `bq < 0` (converted to a huge `uint`) it
is zero — in all those cases the `i < numChildren` creation loop runs zero
times. -/
def goShl1 (bq : ℤ) : ℕ := if 0 ≤ bq ∧ bq < 63 then 2 ^ bq.toNat else 0

/-! ## Element update vectors -/

/-- The loop body of `AddElementArray`: `marray[i] = points[i] − z`, panicking
(`none`) at the first zero entry (`z` equals a sample point). -/
def addElementLoop (z : Zp) : List Zp → Option (List Zp)
  | [] => some []
  | p :: ps =>
    let m := p - z
    if m = 0 then none
    else
      match addElementLoop z ps with
      | none => none
      | some ms => some (m :: ms)

/-- `AddElementArray(t, z)`: insertion contribution vector, `none` models the
"Sample point added to elements" panic. -/
def AddElementArray (t : MemPrefixTree) (z : Zp) : Option (List Zp) :=
  addElementLoop z t.points

/-- `DelElementArray(t, z)`: deletion contribution vector
`(points[i] − z)⁻¹` (Fermat inverse, see `zinv`). -/
def DelElementArray (t : MemPrefixTree) (z : Zp) : List Zp :=
  t.points.map fun p => zinv (p - z)

/-- The in-place svalue update of `updateSvalues`: entries `i < marray.length`
are multiplied, later entries are untouched (if `svalues` is shorter the Go
loop panics after having updated every existing entry; `zipWith` is exactly
that partially-updated state). -/
def updateSvGo (svalues marray : List Zp) : List Zp :=
  List.zipWith (· * ·) svalues marray ++ svalues.drop marray.length

/-- `withRemoved`: keep the elements different from `z`; `none` models the
"Remove non-existent element from node" panic when nothing was dropped. -/
def withRemoved (elements : List Zp) (z : Zp) : Option (List Zp) :=
  if elements.any (fun e => e == z) then some (elements.filter fun e => ¬ e == z) else none

/-! ## The mutators -/

/-- Result of a Go method on a node: normal return with `nil` error (`ok`),
normal return with a non-`nil` error (`err`), panic, or non-termination
(`hang`, reached when the fuel runs out).  `ok`, `err` and `panic` carry the
node state, since Go mutates the receiver in place and a panic does not roll
those mutations back. -/
inductive GoRes (α : Type) where
  | ok : α → GoRes α
  | err : String → α → GoRes α
  | panic : String → α → GoRes α
  | hang : GoRes α

/-- The pending call of the mutation interpreter: `insert`, `split`, the
element-redistribution loop inside `split`, `remove`, and the `join`
worklist loop. -/
inductive Cmd where
  | ins (n : MemPrefixNode) (z : Zp) (marray : List Zp) (bs : Bitstring) (depth : ℕ)
  | split (n : MemPrefixNode) (depth : ℕ)
  | splitLoop (n : MemPrefixNode) (pending : List Zp) (depth : ℕ)
  | rem (n : MemPrefixNode) (z : Zp) (marray : List Zp) (bs : Bitstring) (depth : ℕ)
  | join (n : MemPrefixNode)

/-- The node mutators of `ptree.go` (`insert`, `split`, `remove`, `join`)
as one fuel-indexed interpreter; each nested call costs one unit of fuel.

* `.ins` is `MemPrefixNode.insert`: `updateSvalues` (panicking on a length
  mismatch before mutating, or mid-loop when `svalues` is shorter), then
  `numElements++`; on a leaf either split-then-descend, or duplicate-check
  and append; on an internal node descend through `NextChild`.  The descend
  code appears twice because Go reaches one shared call site by falling
  through the leaf branch.
* `.split` appends `1 << bitQuantum` fresh child leaves and re-inserts every
  element into the child selected by its own navigation bitstring (the
  returned error of that insert is discarded, a panic propagates), finally
  clearing `elements`.
* `.rem` is `MemPrefixNode.remove`: `updateSvalues`, `numElements--`; an
  internal node either joins (when the count dropped to `JoinThreshold` or
  below) and falls through to the leaf code, or descends and returns; a leaf
  runs `withRemoved`.
* `.join` splices the elements of a worklist seeded with the children into
  `elements`, appending grandchildren to the worklist, until no children
  remain. -/
def runNode (t : MemPrefixTree) : ℕ → Cmd → GoRes MemPrefixNode
  | 0, _ => .hang
  | fuel + 1, .ins n z marray bs depth =>
    if marray.length ≠ t.points.length then .panic "Inconsistent NumSamples size" n
    else if n.svalues.length < marray.length then
      .panic "index out of range" (n.withSvalues (updateSvGo n.svalues marray))
    else
      let n1 := (n.withSvalues (updateSvGo n.svalues marray)).withNumElements (n.numElements + 1)
      if n1.IsLeaf then
        if (n1.elements.length : ℤ) > t.splitThreshold then
          match runNode t fuel (.split n1 depth) with
          | .ok n2 =>
            match NextChild t n2 bs depth with
            | .error msg => .panic msg n2
            | .ok (childIndex, c) =>
              match runNode t fuel (.ins c z marray bs (depth + 1)) with
              | .ok c1 => .ok (n2.withChildren (n2.children.set childIndex c1))
              | .err msg c1 => .err msg (n2.withChildren (n2.children.set childIndex c1))
              | .panic msg c1 => .panic msg (n2.withChildren (n2.children.set childIndex c1))
              | .hang => .hang
          | r => r
        else if n1.elements.any (fun nz => nz == z) then
          .panic "Duplicate" n1
        else .ok (n1.withElements (n1.elements ++ [z]))
      else
        match NextChild t n1 bs depth with
        | .error msg => .panic msg n1
        | .ok (childIndex, c) =>
          match runNode t fuel (.ins c z marray bs (depth + 1)) with
          | .ok c1 => .ok (n1.withChildren (n1.children.set childIndex c1))
          | .err msg c1 => .err msg (n1.withChildren (n1.children.set childIndex c1))
          | .panic msg c1 => .panic msg (n1.withChildren (n1.children.set childIndex c1))
          | .hang => .hang
  | fuel + 1, .split n depth =>
    let numChildren := goShl1 t.bitQuantum
    let n1 := n.withChildren
      (n.children ++ (List.range numChildren).map fun i => initNode t (Int.ofNat i))
    match runNode t fuel (.splitLoop n1 n1.elements depth) with
    | .ok n2 => .ok (n2.withElements [])
    | r => r
  | fuel + 1, .splitLoop n pending depth =>
    match pending with
    | [] => .ok n
    | e :: rest =>
      let bs := navOf e
      match NextChild t n bs depth with
      | .error msg => .panic msg n
      | .ok (childIndex, c) =>
        match addElementLoop e t.points with
        | none => .panic "Sample point added to elements" n
        | some marr =>
          match runNode t fuel (.ins c e marr bs (depth + 1)) with
          | .ok c1 =>
            runNode t fuel (.splitLoop (n.withChildren (n.children.set childIndex c1)) rest depth)
          | .err _ c1 =>
            runNode t fuel (.splitLoop (n.withChildren (n.children.set childIndex c1)) rest depth)
          | .panic msg c1 => .panic msg (n.withChildren (n.children.set childIndex c1))
          | .hang => .hang
  | fuel + 1, .rem n z marray bs depth =>
    if marray.length ≠ t.points.length then .panic "Inconsistent NumSamples size" n
    else if n.svalues.length < marray.length then
      .panic "index out of range" (n.withSvalues (updateSvGo n.svalues marray))
    else
      let n1 := (n.withSvalues (updateSvGo n.svalues marray)).withNumElements (n.numElements - 1)
      if n1.IsLeaf then
        match withRemoved n1.elements z with
        | none => .panic "Remove non-existent element from node" n1
        | some es => .ok (n1.withElements es)
      else
        if n1.numElements ≤ t.joinThreshold then
          match runNode t fuel (.join n1) with
          | .ok n2 =>
            match withRemoved n2.elements z with
            | none => .panic "Remove non-existent element from node" n2
            | some es => .ok (n2.withElements es)
          | r => r
        else
          match NextChild t n1 bs depth with
          | .error msg => .panic msg n1
          | .ok (childIndex, c) =>
            match runNode t fuel (.rem c z marray bs (depth + 1)) with
            | .ok c1 => .ok (n1.withChildren (n1.children.set childIndex c1))
            | .err msg c1 => .err msg (n1.withChildren (n1.children.set childIndex c1))
            | .panic msg c1 => .panic msg (n1.withChildren (n1.children.set childIndex c1))
            | .hang => .hang
  | fuel + 1, .join n =>
    match n.children with
    | [] => .ok (n.withChildren [])
    | c :: rest =>
      runNode t fuel
        (.join ((n.withElements (n.elements ++ c.elements)).withChildren (rest ++ c.children)))

/-! ## The public tree interface -/

/-- Result of `MemPrefixTree.Node` / `Root` (read-only, no state to carry). -/
inductive NodeRes where
  | ok : MemPrefixNode → NodeRes
  | err : String → NodeRes
  | panic : String → NodeRes
  | hang : NodeRes

/-- The descent loop of `MemPrefixTree.Node`:
`for i := 0; i < bs.BitLen() && !node.IsLeaf(); i += nbq`.  The body's
leaf test (returning the "Unexpected leaf node" error) is modelled as
written even though the loop condition already excludes leaves. -/
def nodeLoop (t : MemPrefixTree) : ℕ → MemPrefixNode → Bitstring → ℕ → NodeRes
  | 0, _, _, _ => .hang
  | fuel + 1, node, bs, i =>
    if i < bs.bitLen ∧ node.IsLeaf = false then
      let childIndex := nodeChildIndex bs t.bitQuantum.toNat i
      if node.IsLeaf then .err "Unexpected leaf node"
      else
        match node.children[childIndex]? with
        | none => .panic "index out of range"
        | some c => nodeLoop t fuel c bs (i + t.bitQuantum.toNat)
    else .ok node

/-- `MemPrefixTree.Node(bs)`. -/
def MemPrefixTree.Node (t : MemPrefixTree) (fuel : ℕ) (bs : Bitstring) : NodeRes :=
  nodeLoop t fuel t.root bs 0

/-- `MemPrefixTree.Root()`: returns `(t.root, nil)`. -/
def MemPrefixTree.Root (t : MemPrefixTree) : NodeRes := .ok t.root

/-- `Find(t, z) = t.Node(nav(z))`. -/
def Find (t : MemPrefixTree) (fuel : ℕ) (z : Zp) : NodeRes :=
  t.Node fuel (navOf z)

/-- `MemPrefixTree.Insert(z)`: derive the navigation bitstring, compute
`AddElementArray` (whose sample-point panic happens before the root is
touched), then run the root insert. -/
def MemPrefixTree.Insert (t : MemPrefixTree) (fuel : ℕ) (z : Zp) : GoRes MemPrefixTree :=
  let bs := navOf z
  match AddElementArray t z with
  | none => .panic "Sample point added to elements" t
  | some marray =>
    match runNode t fuel (.ins t.root z marray bs 0) with
    | .ok r => .ok { t with root := r }
    | .err msg r => .err msg { t with root := r }
    | .panic msg r => .panic msg { t with root := r }
    | .hang => .hang

/-- `MemPrefixTree.Remove(z)`. -/
def MemPrefixTree.Remove (t : MemPrefixTree) (fuel : ℕ) (z : Zp) : GoRes MemPrefixTree :=
  let bs := navOf z
  let marray := DelElementArray t z
  match runNode t fuel (.rem t.root z marray bs 0) with
  | .ok r => .ok { t with root := r }
  | .err msg r => .err msg { t with root := r }
  | .panic msg r => .panic msg { t with root := r }
  | .hang => .hang

/-- A public mutation: `Insert(z)` or `Remove(z)`. -/
inductive Op where
  | ins : Zp → Op
  | rem : Zp → Op

/-- Run a sequence of public mutations, requiring every call to return
normally with a `nil` error ("successful" calls); any panic, error or
non-termination yields `none`. -/
def runOps (fuel : ℕ) : MemPrefixTree → List Op → Option MemPrefixTree
  | t, [] => some t
  | t, op :: ops =>
    match (match op with | .ins z => t.Insert fuel z | .rem z => t.Remove fuel z) with
    | .ok t1 => runOps fuel t1 ops
    | _ => none

/-! ## Semantic functions on trees -/

mutual
/-- `E(n)`: every element stored at or below `n`, in list form. -/
def MemPrefixNode.allElems : MemPrefixNode → List Zp
  | .mk _ cs es _ _ => es ++ MemPrefixNode.allElemsL cs
def MemPrefixNode.allElemsL : List MemPrefixNode → List Zp
  | [] => []
  | c :: cs => c.allElems ++ MemPrefixNode.allElemsL cs
end

mutual
/-- Total number of nodes of the subtree (used to witness that an insert
performed no split). -/
def MemPrefixNode.countNodes : MemPrefixNode → ℕ
  | .mk _ cs _ _ _ => 1 + MemPrefixNode.countNodesL cs
def MemPrefixNode.countNodesL : List MemPrefixNode → ℕ
  | [] => 0
  | c :: cs => c.countNodes + MemPrefixNode.countNodesL cs
end

/-- The specified svalue vector of a multiset of elements:
`points[i] ↦ ∏_{z ∈ es} (points[i] − z)`. -/
def svSpec (points : List Zp) (es : Multiset Zp) : List Zp :=
  points.map fun p => (es.map fun e => p - e).prod

/-- Every element below child `i` navigates to child `i` at this depth. -/
def PlacedHere (nbq depth : ℕ) (cs : List MemPrefixNode) : Prop :=
  ∀ i, ∀ h : i < cs.length, ∀ e ∈ (cs.get ⟨i, h⟩).allElems,
    nextChildIndex (navOf e) nbq depth = i

mutual
/-- The structural invariant of a node at depth `d` that is independent of
the thresholds: svalues are the specified products, `numElements` counts the
subtree elements, elements are duplicate-free and distinct from every sample
point, an internal node stores no elements directly, and children hold
exactly the elements that navigate to them. -/
def Good (t : MemPrefixTree) : ℕ → MemPrefixNode → Prop
  | d, .mk _ cs es ne sv =>
    sv = svSpec t.points (es ++ MemPrefixNode.allElemsL cs : List Zp) ∧
    ne = ((es ++ MemPrefixNode.allElemsL cs).length : ℤ) ∧
    (es ++ MemPrefixNode.allElemsL cs).Nodup ∧
    (∀ e ∈ es ++ MemPrefixNode.allElemsL cs, e ∉ t.points) ∧
    (cs ≠ [] → es = []) ∧
    PlacedHere t.bitQuantum.toNat d cs ∧
    GoodL t (d + 1) cs
def GoodL (t : MemPrefixTree) : ℕ → List MemPrefixNode → Prop
  | _, [] => True
  | d, c :: cs => Good t d c ∧ GoodL t d cs
end

mutual
/-- The threshold-dependent invariant: leaves hold at most
`SplitThreshold + 1` elements and internal nodes count strictly more than
`JoinThreshold` elements. -/
def Cap (t : MemPrefixTree) : MemPrefixNode → Prop
  | .mk _ cs es ne _ =>
    (cs = [] → (es.length : ℤ) ≤ t.splitThreshold + 1) ∧
    (cs ≠ [] → t.joinThreshold < ne) ∧
    CapL t cs
def CapL (t : MemPrefixTree) : List MemPrefixNode → Prop
  | [] => True
  | c :: cs => Cap t c ∧ CapL t cs
end

mutual
/-- Svalue consistency alone (the conclusion of the svalue invariant):
at every node the svalues are the specified products over the subtree. -/
def SvOK (points : List Zp) : MemPrefixNode → Prop
  | .mk _ cs es _ sv =>
    sv = svSpec points (es ++ MemPrefixNode.allElemsL cs : List Zp) ∧
    SvOKL points cs
def SvOKL (points : List Zp) : List MemPrefixNode → Prop
  | [] => True
  | c :: cs => SvOK points c ∧ SvOKL points cs
end

mutual
/-- Every leaf of the subtree holds at most `st + 1` elements. -/
def LeafBound (st : ℤ) : MemPrefixNode → Prop
  | .mk _ cs es _ _ =>
    (cs = [] → (es.length : ℤ) ≤ st + 1) ∧ LeafBoundL st cs
def LeafBoundL (st : ℤ) : List MemPrefixNode → Prop
  | [] => True
  | c :: cs => LeafBound st c ∧ LeafBoundL st cs
end

/-- The navigation rule as the spec words it: the child index from depth `d`
is the `nbq`-bit number whose bit `j` is bit `d·nbq + j` of the bitstring,
i.e. `∑_j 2^j · bs[d·nbq + j]` (LSB first within the chunk). -/
def specChunk (bs : Bitstring) (nbq depth : ℕ) : ℕ :=
  ∑ j ∈ Finset.range nbq, if bs.bit (depth * nbq + j) then 2 ^ j else 0

/-- The derived-settings relations as the specification words them. -/
def DerivedOK (s : Settings) : Prop :=
  s.splitThreshold = s.threshMult * s.mBar ∧
  s.joinThreshold = Int.tdiv s.splitThreshold 2 ∧
  s.numSamples = s.mBar + 1

/-- Occurrence of a node at a depth: `SubnodeAt n d m dm` says that `m` sits
at depth `dm` inside the subtree rooted at `n`, itself at depth `d`. -/
inductive SubnodeAt : MemPrefixNode → ℕ → MemPrefixNode → ℕ → Prop where
  | refl (n : MemPrefixNode) (d : ℕ) : SubnodeAt n d n d
  | child (n : MemPrefixNode) (d : ℕ) (c m : MemPrefixNode) (dm : ℕ) :
      c ∈ n.children → SubnodeAt c (d + 1) m dm → SubnodeAt n d m dm

/-- Project a `GoRes` to the carried tree, with a default for `hang`; used
below to name concrete post-states of `Insert`/`Remove` calls. -/
def resOrD (d : MemPrefixTree) : GoRes MemPrefixTree → MemPrefixTree
  | .ok x => x
  | .err _ x => x
  | .panic _ x => x
  | .hang => d

/-- Project a `GoRes` to the carried node, with a default for `hang`. -/
def nodeOrD (d : MemPrefixNode) : GoRes MemPrefixNode → MemPrefixNode
  | .ok x => x
  | .err _ x => x
  | .panic _ x => x
  | .hang => d

/-- The all-zero tree value (every configuration field zero, empty root): a
concrete pre-`Init` state for the evaluation witnesses. -/
def zeroTree : MemPrefixTree :=
  { splitThreshold := 0, joinThreshold := 0, bitQuantum := 0, mBar := 0,
    numSamples := 0, points := [], root := .mk 0 [] [] 0 [] }

/-- The initialized all-default tree. -/
def wT : MemPrefixTree := zeroTree.Init

/-- The default tree after `Insert(7)`. -/
def wT1 : MemPrefixTree := resOrD zeroTree (wT.Insert 10 7)

/-- The previous tree after `Remove(7)`. -/
def wT2 : MemPrefixTree := resOrD zeroTree (wT1.Remove 10 7)

/-- The first sample point of the initialized default tree. -/
def wSample : Zp := wT.points.getD 0 0

/-- A start state with preset thresholds `splitThreshold = 2`,
`joinThreshold = 1`, small enough to exercise a split on four elements. -/
def smallTree : MemPrefixTree :=
  { splitThreshold := 2, joinThreshold := 1, bitQuantum := 0, mBar := 0,
    numSamples := 0, points := [], root := .mk 0 [] [] 0 [] }

/-- The small-threshold tree after inserting `4`, `5` and `6`: a full root
leaf (three elements, `splitThreshold + 1`); their navigation chunks at
depth `0` are `0`, `1` and `2`. -/
def wP3 : MemPrefixTree :=
  (runOps 20 smallTree.Init [Op.ins 4, Op.ins 5, Op.ins 6]).getD zeroTree

/-- The previous tree after `Insert(7)`, which splits the root. -/
def wP4 : MemPrefixTree := resOrD zeroTree (wP3.Insert 20 7)

/-- The previous tree after `Remove(7)`: the split persists. -/
def wP5 : MemPrefixTree := resOrD zeroTree (wP4.Remove 20 7)

/-- The default tree after a duplicate `Insert(7)` into `wT1`: the panic
state, with the root already mutated. -/
def wDup : MemPrefixTree := resOrD zeroTree (wT1.Insert 10 7)

/-- A concrete internal node with two one-element child leaves. -/
def joinNode : MemPrefixNode :=
  .mk 0 [.mk 0 [] [5] 1 [1, 1], .mk 1 [] [9] 1 [1, 1]] [] 2 [1, 1]

/-- The result of running `join` on `joinNode`. -/
def wJoin : MemPrefixNode := nodeOrD joinNode (runNode zeroTree 10 (.join joinNode))

/-- A pre-`Init` tree with `mBar` preset to `3` and every other field zero. -/
def cfgMBar3 : MemPrefixTree := { zeroTree with mBar := 3 }

/-- A pre-`Init` tree whose settings violate the spec's validation ranges
(`BitQuantum < 1`, `MBar < 1`). -/
def cfgBad : MemPrefixTree := { zeroTree with bitQuantum := -3, mBar := -2 }

theorem powModAux_correct (f : Nat) : ∀ a e n, e < 2 ^ f → powModAux f a e n = a ^ e % n := by
  induction f with
  | zero =>
    intro a e n he
    interval_cases e
    simp [powModAux]
  | succ f ih =>
    intro a e n he
    by_cases h0 : e = 0
    · simp [powModAux, h0]
    · have hdiv : e / 2 < 2 ^ f := by
        have h2 : (2:Nat) ^ (f+1) = 2 * 2 ^ f := by rw [Nat.pow_succ]; ring
        omega
      have hrec := ih (a * a % n) (e / 2) n hdiv
      have hsq : (a * a % n) ^ (e / 2) % n = (a * a) ^ (e / 2) % n := by
        conv_rhs => rw [Nat.pow_mod]
      by_cases hpar : e % 2 = 1
      · have he2 : e = 2 * (e / 2) + 1 := by omega
        calc powModAux (f+1) a e n
            = (a * a % n) ^ (e / 2) % n * a % n := by
              simp [powModAux, h0, hpar, hrec]
          _ = (a * a) ^ (e / 2) % n * a % n := by rw [hsq]
          _ = (a * a) ^ (e / 2) * a % n := by
              rw [Nat.mod_mul_mod]
          _ = a ^ e % n := by
              congr 1
              rw [show a * a = a ^ 2 by ring, ← pow_mul, ← pow_succ, ← he2]
      · have hpar0 : e % 2 = 0 := by omega
        have he2 : e = 2 * (e / 2) := by omega
        calc powModAux (f+1) a e n
            = (a * a % n) ^ (e / 2) % n := by
              simp [powModAux, h0, hpar, hrec]
          _ = (a * a) ^ (e / 2) % n := hsq
          _ = a ^ e % n := by
              congr 1
              rw [show a * a = a ^ 2 by ring, ← pow_mul, ← he2]

theorem powMod_correct (a e n : Nat) (he : e < 2 ^ 200) : powMod a e n = a ^ e % n :=
  powModAux_correct 200 a e n he


/-- Bridge: powers in `ZMod p` computed through `powMod`. -/
theorem zmod_pow_powMod (p a e : ℕ) (he : e < 2 ^ 200) :
    ((a : ℕ) : ZMod p) ^ e = ((powMod a e p : ℕ) : ZMod p) := by
  rw [powMod_correct a e p he, ZMod.natCast_mod, Nat.cast_pow]

set_option maxRecDepth 1000000

/-- Lucas primality certificate for 4152995827. -/
theorem prime_4152995827 : Nat.Prime 4152995827 := by
  have hfac : 4152995827 - 1 = 2 * (3 * (7 * (163 * (179 * (3389))))) := by norm_num
  apply lucas_primality 4152995827 ((3 : ℕ) : ZMod 4152995827)
  · rw [zmod_pow_powMod 4152995827 3 (4152995827 - 1) (by norm_num)]
    rw [show powMod 3 (4152995827 - 1) 4152995827 = 1 from by decide]
    exact Nat.cast_one
  · intro q hq hdvd
    rw [hfac] at hdvd
    rcases (Nat.Prime.dvd_mul hq).mp hdvd with h | h
    · have : q = 2 := (Nat.prime_dvd_prime_iff_eq hq (by norm_num)).mp h
      subst this
      rw [zmod_pow_powMod 4152995827 3 ((4152995827 - 1) / 2) (by norm_num)]
      rw [show powMod 3 ((4152995827 - 1) / 2) 4152995827 = 4152995826 from by decide]
      intro hcontra
      have hval := congrArg ZMod.val hcontra
      haveI : Fact (1 < 4152995827) := ⟨by norm_num⟩
      rw [ZMod.val_cast_of_lt (by norm_num), ZMod.val_one] at hval
      exact absurd hval (by norm_num)
    · rcases (Nat.Prime.dvd_mul hq).mp h with h | h
      · have : q = 3 := (Nat.prime_dvd_prime_iff_eq hq (by norm_num)).mp h
        subst this
        rw [zmod_pow_powMod 4152995827 3 ((4152995827 - 1) / 3) (by norm_num)]
        rw [show powMod 3 ((4152995827 - 1) / 3) 4152995827 = 1972589194 from by decide]
        intro hcontra
        have hval := congrArg ZMod.val hcontra
        haveI : Fact (1 < 4152995827) := ⟨by norm_num⟩
        rw [ZMod.val_cast_of_lt (by norm_num), ZMod.val_one] at hval
        exact absurd hval (by norm_num)
      · rcases (Nat.Prime.dvd_mul hq).mp h with h | h
        · have : q = 7 := (Nat.prime_dvd_prime_iff_eq hq (by norm_num)).mp h
          subst this
          rw [zmod_pow_powMod 4152995827 3 ((4152995827 - 1) / 7) (by norm_num)]
          rw [show powMod 3 ((4152995827 - 1) / 7) 4152995827 = 60608111 from by decide]
          intro hcontra
          have hval := congrArg ZMod.val hcontra
          haveI : Fact (1 < 4152995827) := ⟨by norm_num⟩
          rw [ZMod.val_cast_of_lt (by norm_num), ZMod.val_one] at hval
          exact absurd hval (by norm_num)
        · rcases (Nat.Prime.dvd_mul hq).mp h with h | h
          · have : q = 163 := (Nat.prime_dvd_prime_iff_eq hq (by norm_num)).mp h
            subst this
            rw [zmod_pow_powMod 4152995827 3 ((4152995827 - 1) / 163) (by norm_num)]
            rw [show powMod 3 ((4152995827 - 1) / 163) 4152995827 = 991125939 from by decide]
            intro hcontra
            have hval := congrArg ZMod.val hcontra
            haveI : Fact (1 < 4152995827) := ⟨by norm_num⟩
            rw [ZMod.val_cast_of_lt (by norm_num), ZMod.val_one] at hval
            exact absurd hval (by norm_num)
          · rcases (Nat.Prime.dvd_mul hq).mp h with h | h
            · have : q = 179 := (Nat.prime_dvd_prime_iff_eq hq (by norm_num)).mp h
              subst this
              rw [zmod_pow_powMod 4152995827 3 ((4152995827 - 1) / 179) (by norm_num)]
              rw [show powMod 3 ((4152995827 - 1) / 179) 4152995827 = 1083131321 from by decide]
              intro hcontra
              have hval := congrArg ZMod.val hcontra
              haveI : Fact (1 < 4152995827) := ⟨by norm_num⟩
              rw [ZMod.val_cast_of_lt (by norm_num), ZMod.val_one] at hval
              exact absurd hval (by norm_num)
            · have : q = 3389 := (Nat.prime_dvd_prime_iff_eq hq (by norm_num)).mp h
              subst this
              rw [zmod_pow_powMod 4152995827 3 ((4152995827 - 1) / 3389) (by norm_num)]
              rw [show powMod 3 ((4152995827 - 1) / 3389) 4152995827 = 59332576 from by decide]
              intro hcontra
              have hval := congrArg ZMod.val hcontra
              haveI : Fact (1 < 4152995827) := ⟨by norm_num⟩
              rw [ZMod.val_cast_of_lt (by norm_num), ZMod.val_one] at hval
              exact absurd hval (by norm_num)

/-- Lucas primality certificate for 6915934114753177. -/
theorem prime_6915934114753177 : Nat.Prime 6915934114753177 := by
  have hfac : 6915934114753177 - 1 = 2 ^ 3 * (3 ^ 2 * (101 * (229 * (4152995827)))) := by norm_num
  apply lucas_primality 6915934114753177 ((5 : ℕ) : ZMod 6915934114753177)
  · rw [zmod_pow_powMod 6915934114753177 5 (6915934114753177 - 1) (by norm_num)]
    rw [show powMod 5 (6915934114753177 - 1) 6915934114753177 = 1 from by decide]
    exact Nat.cast_one
  · intro q hq hdvd
    rw [hfac] at hdvd
    rcases (Nat.Prime.dvd_mul hq).mp hdvd with h | h
    · have hqd : q ∣ 2 := hq.dvd_of_dvd_pow h
      have : q = 2 := (Nat.prime_dvd_prime_iff_eq hq (by norm_num)).mp hqd
      subst this
      rw [zmod_pow_powMod 6915934114753177 5 ((6915934114753177 - 1) / 2) (by norm_num)]
      rw [show powMod 5 ((6915934114753177 - 1) / 2) 6915934114753177 = 6915934114753176 from by decide]
      intro hcontra
      have hval := congrArg ZMod.val hcontra
      haveI : Fact (1 < 6915934114753177) := ⟨by norm_num⟩
      rw [ZMod.val_cast_of_lt (by norm_num), ZMod.val_one] at hval
      exact absurd hval (by norm_num)
    · rcases (Nat.Prime.dvd_mul hq).mp h with h | h
      · have hqd : q ∣ 3 := hq.dvd_of_dvd_pow h
        have : q = 3 := (Nat.prime_dvd_prime_iff_eq hq (by norm_num)).mp hqd
        subst this
        rw [zmod_pow_powMod 6915934114753177 5 ((6915934114753177 - 1) / 3) (by norm_num)]
        rw [show powMod 5 ((6915934114753177 - 1) / 3) 6915934114753177 = 2506722897659746 from by decide]
        intro hcontra
        have hval := congrArg ZMod.val hcontra
        haveI : Fact (1 < 6915934114753177) := ⟨by norm_num⟩
        rw [ZMod.val_cast_of_lt (by norm_num), ZMod.val_one] at hval
        exact absurd hval (by norm_num)
      · rcases (Nat.Prime.dvd_mul hq).mp h with h | h
        · have : q = 101 := (Nat.prime_dvd_prime_iff_eq hq (by norm_num)).mp h
          subst this
          rw [zmod_pow_powMod 6915934114753177 5 ((6915934114753177 - 1) / 101) (by norm_num)]
          rw [show powMod 5 ((6915934114753177 - 1) / 101) 6915934114753177 = 2003783482033266 from by decide]
          intro hcontra
          have hval := congrArg ZMod.val hcontra
          haveI : Fact (1 < 6915934114753177) := ⟨by norm_num⟩
          rw [ZMod.val_cast_of_lt (by norm_num), ZMod.val_one] at hval
          exact absurd hval (by norm_num)
        · rcases (Nat.Prime.dvd_mul hq).mp h with h | h
          · have : q = 229 := (Nat.prime_dvd_prime_iff_eq hq (by norm_num)).mp h
            subst this
            rw [zmod_pow_powMod 6915934114753177 5 ((6915934114753177 - 1) / 229) (by norm_num)]
            rw [show powMod 5 ((6915934114753177 - 1) / 229) 6915934114753177 = 3906926961992425 from by decide]
            intro hcontra
            have hval := congrArg ZMod.val hcontra
            haveI : Fact (1 < 6915934114753177) := ⟨by norm_num⟩
            rw [ZMod.val_cast_of_lt (by norm_num), ZMod.val_one] at hval
            exact absurd hval (by norm_num)
          · have : q = 4152995827 := (Nat.prime_dvd_prime_iff_eq hq prime_4152995827).mp h
            subst this
            rw [zmod_pow_powMod 6915934114753177 5 ((6915934114753177 - 1) / 4152995827) (by norm_num)]
            rw [show powMod 5 ((6915934114753177 - 1) / 4152995827) 6915934114753177 = 3316422669547724 from by decide]
            intro hcontra
            have hval := congrArg ZMod.val hcontra
            haveI : Fact (1 < 6915934114753177) := ⟨by norm_num⟩
            rw [ZMod.val_cast_of_lt (by norm_num), ZMod.val_one] at hval
            exact absurd hval (by norm_num)

/-- Lucas primality certificate for 398665453454291972707393069591229. -/
theorem prime_Q_SKS : Nat.Prime 398665453454291972707393069591229 := by
  have hfac : 398665453454291972707393069591229 - 1 = 2 ^ 2 * (14621 * (927847 * (1062293 * (6915934114753177)))) := by norm_num
  apply lucas_primality 398665453454291972707393069591229 ((2 : ℕ) : ZMod 398665453454291972707393069591229)
  · rw [zmod_pow_powMod 398665453454291972707393069591229 2 (398665453454291972707393069591229 - 1) (by norm_num)]
    rw [show powMod 2 (398665453454291972707393069591229 - 1) 398665453454291972707393069591229 = 1 from by decide]
    exact Nat.cast_one
  · intro q hq hdvd
    rw [hfac] at hdvd
    rcases (Nat.Prime.dvd_mul hq).mp hdvd with h | h
    · have hqd : q ∣ 2 := hq.dvd_of_dvd_pow h
      have : q = 2 := (Nat.prime_dvd_prime_iff_eq hq (by norm_num)).mp hqd
      subst this
      rw [zmod_pow_powMod 398665453454291972707393069591229 2 ((398665453454291972707393069591229 - 1) / 2) (by norm_num)]
      rw [show powMod 2 ((398665453454291972707393069591229 - 1) / 2) 398665453454291972707393069591229 = 398665453454291972707393069591228 from by decide]
      intro hcontra
      have hval := congrArg ZMod.val hcontra
      haveI : Fact (1 < 398665453454291972707393069591229) := ⟨by norm_num⟩
      rw [ZMod.val_cast_of_lt (by norm_num), ZMod.val_one] at hval
      exact absurd hval (by norm_num)
    · rcases (Nat.Prime.dvd_mul hq).mp h with h | h
      · have : q = 14621 := (Nat.prime_dvd_prime_iff_eq hq (by norm_num)).mp h
        subst this
        rw [zmod_pow_powMod 398665453454291972707393069591229 2 ((398665453454291972707393069591229 - 1) / 14621) (by norm_num)]
        rw [show powMod 2 ((398665453454291972707393069591229 - 1) / 14621) 398665453454291972707393069591229 = 140830788552892236874193995528246 from by decide]
        intro hcontra
        have hval := congrArg ZMod.val hcontra
        haveI : Fact (1 < 398665453454291972707393069591229) := ⟨by norm_num⟩
        rw [ZMod.val_cast_of_lt (by norm_num), ZMod.val_one] at hval
        exact absurd hval (by norm_num)
      · rcases (Nat.Prime.dvd_mul hq).mp h with h | h
        · have : q = 927847 := (Nat.prime_dvd_prime_iff_eq hq (by norm_num)).mp h
          subst this
          rw [zmod_pow_powMod 398665453454291972707393069591229 2 ((398665453454291972707393069591229 - 1) / 927847) (by norm_num)]
          rw [show powMod 2 ((398665453454291972707393069591229 - 1) / 927847) 398665453454291972707393069591229 = 93233310298995022874908697966857 from by decide]
          intro hcontra
          have hval := congrArg ZMod.val hcontra
          haveI : Fact (1 < 398665453454291972707393069591229) := ⟨by norm_num⟩
          rw [ZMod.val_cast_of_lt (by norm_num), ZMod.val_one] at hval
          exact absurd hval (by norm_num)
        · rcases (Nat.Prime.dvd_mul hq).mp h with h | h
          · have : q = 1062293 := (Nat.prime_dvd_prime_iff_eq hq (by norm_num)).mp h
            subst this
            rw [zmod_pow_powMod 398665453454291972707393069591229 2 ((398665453454291972707393069591229 - 1) / 1062293) (by norm_num)]
            rw [show powMod 2 ((398665453454291972707393069591229 - 1) / 1062293) 398665453454291972707393069591229 = 9668012216452646594848055010891 from by decide]
            intro hcontra
            have hval := congrArg ZMod.val hcontra
            haveI : Fact (1 < 398665453454291972707393069591229) := ⟨by norm_num⟩
            rw [ZMod.val_cast_of_lt (by norm_num), ZMod.val_one] at hval
            exact absurd hval (by norm_num)
          · have : q = 6915934114753177 := (Nat.prime_dvd_prime_iff_eq hq prime_6915934114753177).mp h
            subst this
            rw [zmod_pow_powMod 398665453454291972707393069591229 2 ((398665453454291972707393069591229 - 1) / 6915934114753177) (by norm_num)]
            rw [show powMod 2 ((398665453454291972707393069591229 - 1) / 6915934114753177) 398665453454291972707393069591229 = 245213997342288810834091843455315 from by decide]
            intro hcontra
            have hval := congrArg ZMod.val hcontra
            haveI : Fact (1 < 398665453454291972707393069591229) := ⟨by norm_num⟩
            rw [ZMod.val_cast_of_lt (by norm_num), ZMod.val_one] at hval
            exact absurd hval (by norm_num)

/-- Lucas primality certificate for 530512889551602322505127520352579437339. -/
theorem P_SKS_prime : Nat.Prime 530512889551602322505127520352579437339 := by
  have hfac : 530512889551602322505127520352579437339 - 1 = 2 * (3 ^ 3 * (19 * (1297 * (398665453454291972707393069591229)))) := by norm_num
  apply lucas_primality 530512889551602322505127520352579437339 ((7 : ℕ) : ZMod 530512889551602322505127520352579437339)
  · rw [zmod_pow_powMod 530512889551602322505127520352579437339 7 (530512889551602322505127520352579437339 - 1) (by norm_num)]
    rw [show powMod 7 (530512889551602322505127520352579437339 - 1) 530512889551602322505127520352579437339 = 1 from by decide]
    exact Nat.cast_one
  · intro q hq hdvd
    rw [hfac] at hdvd
    rcases (Nat.Prime.dvd_mul hq).mp hdvd with h | h
    · have : q = 2 := (Nat.prime_dvd_prime_iff_eq hq (by norm_num)).mp h
      subst this
      rw [zmod_pow_powMod 530512889551602322505127520352579437339 7 ((530512889551602322505127520352579437339 - 1) / 2) (by norm_num)]
      rw [show powMod 7 ((530512889551602322505127520352579437339 - 1) / 2) 530512889551602322505127520352579437339 = 530512889551602322505127520352579437338 from by decide]
      intro hcontra
      have hval := congrArg ZMod.val hcontra
      haveI : Fact (1 < 530512889551602322505127520352579437339) := ⟨by norm_num⟩
      rw [ZMod.val_cast_of_lt (by norm_num), ZMod.val_one] at hval
      exact absurd hval (by norm_num)
    · rcases (Nat.Prime.dvd_mul hq).mp h with h | h
      · have hqd : q ∣ 3 := hq.dvd_of_dvd_pow h
        have : q = 3 := (Nat.prime_dvd_prime_iff_eq hq (by norm_num)).mp hqd
        subst this
        rw [zmod_pow_powMod 530512889551602322505127520352579437339 7 ((530512889551602322505127520352579437339 - 1) / 3) (by norm_num)]
        rw [show powMod 7 ((530512889551602322505127520352579437339 - 1) / 3) 530512889551602322505127520352579437339 = 32614618787444750813577013594376810567 from by decide]
        intro hcontra
        have hval := congrArg ZMod.val hcontra
        haveI : Fact (1 < 530512889551602322505127520352579437339) := ⟨by norm_num⟩
        rw [ZMod.val_cast_of_lt (by norm_num), ZMod.val_one] at hval
        exact absurd hval (by norm_num)
      · rcases (Nat.Prime.dvd_mul hq).mp h with h | h
        · have : q = 19 := (Nat.prime_dvd_prime_iff_eq hq (by norm_num)).mp h
          subst this
          rw [zmod_pow_powMod 530512889551602322505127520352579437339 7 ((530512889551602322505127520352579437339 - 1) / 19) (by norm_num)]
          rw [show powMod 7 ((530512889551602322505127520352579437339 - 1) / 19) 530512889551602322505127520352579437339 = 215485405251020296725637713917174233030 from by decide]
          intro hcontra
          have hval := congrArg ZMod.val hcontra
          haveI : Fact (1 < 530512889551602322505127520352579437339) := ⟨by norm_num⟩
          rw [ZMod.val_cast_of_lt (by norm_num), ZMod.val_one] at hval
          exact absurd hval (by norm_num)
        · rcases (Nat.Prime.dvd_mul hq).mp h with h | h
          · have : q = 1297 := (Nat.prime_dvd_prime_iff_eq hq (by norm_num)).mp h
            subst this
            rw [zmod_pow_powMod 530512889551602322505127520352579437339 7 ((530512889551602322505127520352579437339 - 1) / 1297) (by norm_num)]
            rw [show powMod 7 ((530512889551602322505127520352579437339 - 1) / 1297) 530512889551602322505127520352579437339 = 355786096555345901101385483560259603853 from by decide]
            intro hcontra
            have hval := congrArg ZMod.val hcontra
            haveI : Fact (1 < 530512889551602322505127520352579437339) := ⟨by norm_num⟩
            rw [ZMod.val_cast_of_lt (by norm_num), ZMod.val_one] at hval
            exact absurd hval (by norm_num)
          · have : q = 398665453454291972707393069591229 := (Nat.prime_dvd_prime_iff_eq hq prime_Q_SKS).mp h
            subst this
            rw [zmod_pow_powMod 530512889551602322505127520352579437339 7 ((530512889551602322505127520352579437339 - 1) / 398665453454291972707393069591229) (by norm_num)]
            rw [show powMod 7 ((530512889551602322505127520352579437339 - 1) / 398665453454291972707393069591229) 530512889551602322505127520352579437339 = 362890391639222784890764201681406466720 from by decide]
            intro hcontra
            have hval := congrArg ZMod.val hcontra
            haveI : Fact (1 < 530512889551602322505127520352579437339) := ⟨by norm_num⟩
            rw [ZMod.val_cast_of_lt (by norm_num), ZMod.val_one] at hval
            exact absurd hval (by norm_num)


/-- Fermat cancellation for the modelled inverse: `a * zinv a = 1` for nonzero `a`. -/
theorem zinv_cancel (a : Zp) (ha : a ≠ 0) : a * zinv a = 1 := by
  haveI : NeZero P_SKS := ⟨by norm_num [P_SKS]⟩
  haveI : Fact (Nat.Prime P_SKS) := ⟨P_SKS_prime⟩
  have h1 : zinv a = a ^ (P_SKS - 2) := by
    rw [zinv, ← zmod_pow_powMod P_SKS a.val (P_SKS - 2) (by norm_num [P_SKS])]
    rw [ZMod.natCast_rightInverse a]
  have h2 : a * a ^ (P_SKS - 2) = a ^ (P_SKS - 1) := by
    rw [mul_comm, ← pow_succ]
    norm_num [P_SKS]
  rw [h1, h2, ZMod.pow_card_sub_one_eq_one ha]

/-! ## Basic equations for the model -/

theorem MemPrefixNode.isLeaf_iff (n : MemPrefixNode) : n.IsLeaf = true ↔ n.children = [] := by
  cases n with
  | mk k cs es ne sv =>
    simp [MemPrefixNode.IsLeaf, MemPrefixNode.children, List.length_eq_zero]

theorem MemPrefixNode.isLeaf_false_iff (n : MemPrefixNode) :
    n.IsLeaf = false ↔ n.children ≠ [] := by
  rw [← Bool.not_eq_true, not_iff_not, MemPrefixNode.isLeaf_iff]

theorem allElemsL_append (cs ds : List MemPrefixNode) :
    MemPrefixNode.allElemsL (cs ++ ds) =
      MemPrefixNode.allElemsL cs ++ MemPrefixNode.allElemsL ds := by
  induction cs with
  | nil => simp [MemPrefixNode.allElemsL]
  | cons c cs ih => simp [MemPrefixNode.allElemsL, ih]

theorem mem_allElemsL {e : Zp} {cs : List MemPrefixNode} :
    e ∈ MemPrefixNode.allElemsL cs ↔ ∃ c ∈ cs, e ∈ c.allElems := by
  induction cs with
  | nil => simp [MemPrefixNode.allElemsL]
  | cons c cs ih => simp [MemPrefixNode.allElemsL, ih]

theorem mem_allElemsL_get {e : Zp} {cs : List MemPrefixNode} :
    e ∈ MemPrefixNode.allElemsL cs ↔
      ∃ i, ∃ h : i < cs.length, e ∈ (cs.get ⟨i, h⟩).allElems := by
  rw [mem_allElemsL]
  constructor
  · rintro ⟨c, hc, he⟩
    rcases List.get_of_mem hc with ⟨⟨i, hi⟩, rfl⟩
    exact ⟨i, hi, he⟩
  · rintro ⟨i, hi, he⟩
    exact ⟨cs.get ⟨i, hi⟩, List.get_mem cs i hi, he⟩

theorem countNodesL_append (cs ds : List MemPrefixNode) :
    MemPrefixNode.countNodesL (cs ++ ds) =
      MemPrefixNode.countNodesL cs + MemPrefixNode.countNodesL ds := by
  induction cs with
  | nil => simp [MemPrefixNode.countNodesL]
  | cons c cs ih => simp [MemPrefixNode.countNodesL, ih]; omega

theorem countNodes_pos (n : MemPrefixNode) : 1 ≤ n.countNodes := by
  cases n with
  | mk k cs es ne sv => simp [MemPrefixNode.countNodes]

theorem goodL_iff {t : MemPrefixTree} {d : ℕ} {cs : List MemPrefixNode} :
    GoodL t d cs ↔ ∀ c ∈ cs, Good t d c := by
  induction cs with
  | nil => simp [GoodL]
  | cons c cs ih => simp [GoodL, ih]

theorem capL_iff {t : MemPrefixTree} {cs : List MemPrefixNode} :
    CapL t cs ↔ ∀ c ∈ cs, Cap t c := by
  induction cs with
  | nil => simp [CapL]
  | cons c cs ih => simp [CapL, ih]

theorem svOKL_iff {points : List Zp} {cs : List MemPrefixNode} :
    SvOKL points cs ↔ ∀ c ∈ cs, SvOK points c := by
  induction cs with
  | nil => simp [SvOKL]
  | cons c cs ih => simp [SvOKL, ih]

theorem leafBoundL_iff {st : ℤ} {cs : List MemPrefixNode} :
    LeafBoundL st cs ↔ ∀ c ∈ cs, LeafBound st c := by
  induction cs with
  | nil => simp [LeafBoundL]
  | cons c cs ih => simp [LeafBoundL, ih]

/-- Induction over the subtree structure. -/
theorem MemPrefixNode.indOn (motive : MemPrefixNode → Prop)
    (h : ∀ k cs es ne sv, (∀ c ∈ cs, motive c) → motive (.mk k cs es ne sv)) :
    ∀ n, motive n
  | .mk k cs es ne sv => h k cs es ne sv fun c hc =>
      have : sizeOf c < sizeOf (MemPrefixNode.mk k cs es ne sv) := by
        have h1 := List.sizeOf_lt_of_mem hc
        simp only [mk.sizeOf_spec]
        omega
      MemPrefixNode.indOn motive h c
termination_by n => sizeOf n

/-- `Good` implies the svalue-consistency projection. -/
theorem Good.svOK {t : MemPrefixTree} : ∀ {n : MemPrefixNode} {d : ℕ},
    Good t d n → SvOK t.points n := by
  have key : ∀ n, ∀ d, Good t d n → SvOK t.points n := by
    intro n
    induction n using MemPrefixNode.indOn with
    | h k cs es ne sv ih =>
      intro d hg
      rw [Good] at hg
      rw [SvOK]
      refine ⟨hg.1, ?_⟩
      rw [svOKL_iff]
      intro c hc
      exact ih c hc (d + 1) ((goodL_iff.mp hg.2.2.2.2.2.2) c hc)
  exact fun {n d} h => key n d h

/-- `Cap` implies the leaf-capacity projection. -/
theorem Cap.leafBound {t : MemPrefixTree} : ∀ {n : MemPrefixNode},
    Cap t n → LeafBound t.splitThreshold n := by
  have key : ∀ n, Cap t n → LeafBound t.splitThreshold n := by
    intro n
    induction n using MemPrefixNode.indOn with
    | h k cs es ne sv ih =>
      intro hg
      rw [Cap] at hg
      rw [LeafBound]
      refine ⟨hg.1, ?_⟩
      rw [leafBoundL_iff]
      intro c hc
      exact ih c hc ((capL_iff.mp hg.2.2) c hc)
  exact fun {n} h => key n h

/-! ## Svalue update lemmas -/

theorem svSpec_length (pts : List Zp) (es : Multiset Zp) :
    (svSpec pts es).length = pts.length := by simp [svSpec]

theorem svSpec_nil_elems (pts : List Zp) :
    svSpec pts 0 = List.replicate pts.length (1 : Zp) := by
  induction pts with
  | nil => simp [svSpec]
  | cons p pts ih =>
    simp only [svSpec, List.map_cons, List.length_cons, List.replicate_succ] at ih ⊢
    simp [ih]

theorem updateSvGo_eq (sv m : List Zp) (h : sv.length ≤ m.length) :
    updateSvGo sv m = List.zipWith (· * ·) sv m := by
  simp [updateSvGo, List.drop_eq_nil_of_le h]

theorem updateSvGo_add (pts : List Zp) (es : Multiset Zp) (z : Zp) :
    updateSvGo (svSpec pts es) (pts.map fun p => p - z) = svSpec pts (z ::ₘ es) := by
  induction pts with
  | nil => simp [svSpec, updateSvGo]
  | cons p pts ih =>
    simp only [svSpec, List.map_cons] at ih ⊢
    simp only [updateSvGo, List.zipWith_cons_cons, List.length_cons, List.drop_succ_cons] at ih ⊢
    rw [List.cons_append, List.cons_eq_cons]
    constructor
    · simp [Multiset.prod_cons, mul_comm]
    · exact ih

theorem updateSvGo_del (pts : List Zp) (es : Multiset Zp) (z : Zp) (hz : z ∉ pts) :
    updateSvGo (svSpec pts (z ::ₘ es)) (pts.map fun p => zinv (p - z)) = svSpec pts es := by
  induction pts with
  | nil => simp [svSpec, updateSvGo]
  | cons p pts ih =>
    have hpz : p - z ≠ 0 := by
      rw [sub_ne_zero]
      intro heq
      exact hz (heq ▸ List.mem_cons_self p pts)
    have hz' : z ∉ pts := fun h => hz (List.mem_cons_of_mem p h)
    simp only [svSpec, List.map_cons] at ih ⊢
    simp only [updateSvGo, List.zipWith_cons_cons, List.length_cons, List.drop_succ_cons] at ih ⊢
    rw [List.cons_append, List.cons_eq_cons]
    constructor
    · rw [Multiset.map_cons, Multiset.prod_cons, mul_comm (p - z) _, mul_assoc,
        zinv_cancel _ hpz, mul_one]
    · exact ih hz'

/-! ## Element-vector and element-bag lemmas -/

theorem addElementLoop_eq_some {z : Zp} : ∀ {ps ms : List Zp},
    addElementLoop z ps = some ms →
      (∀ p ∈ ps, p - z ≠ 0) ∧ ms = ps.map fun p => p - z := by
  intro ps
  induction ps with
  | nil => intro ms h; simp [addElementLoop] at h; subst h; simp
  | cons p ps ih =>
    intro ms h
    by_cases h0 : p - z = 0
    · simp [addElementLoop, h0] at h
    · simp only [addElementLoop, h0, if_neg h0, reduceIte] at h
      rcases hrec : addElementLoop z ps with _ | ms'
      · rw [hrec] at h; simp at h
      · rw [hrec] at h
        simp only [Option.some.injEq] at h
        rcases ih hrec with ⟨hall, hms⟩
        refine ⟨?_, ?_⟩
        · intro q hq
          rcases List.mem_cons.mp hq with rfl | hq
          · exact h0
          · exact hall q hq
        · simp [← h, hms]

theorem addElementLoop_of_mem {z : Zp} : ∀ {ps : List Zp}, z ∈ ps →
    addElementLoop z ps = none := by
  intro ps
  induction ps with
  | nil => intro h; simp at h
  | cons p ps ih =>
    intro h
    rcases List.mem_cons.mp h with rfl | h
    · simp [addElementLoop]
    · by_cases h0 : p - z = 0
      · simp [addElementLoop, h0]
      · simp [addElementLoop, h0, ih h]

theorem withRemoved_eq_some {es r : List Zp} {z : Zp} :
    withRemoved es z = some r ↔ z ∈ es ∧ r = es.filter fun e => ¬ e == z := by
  constructor
  · intro h
    rw [withRemoved] at h
    split at h
    · rename_i hany
      rcases List.any_eq_true.mp hany with ⟨e, he, hez⟩
      rw [beq_iff_eq] at hez
      subst hez
      exact ⟨he, ((Option.some.injEq _ _).mp h).symm⟩
    · simp at h
  · rintro ⟨hz, rfl⟩
    rw [withRemoved, if_pos]
    exact List.any_eq_true.mpr ⟨z, hz, beq_self_eq_true z⟩

theorem withRemoved_append_fresh {es : List Zp} {z : Zp} (h : ∀ e ∈ es, e ≠ z) :
    withRemoved (es ++ [z]) z = some es := by
  rw [withRemoved, if_pos]
  · congr 1
    rw [List.filter_append]
    have h1 : es.filter (fun e => ¬ e == z) = es := by
      rw [List.filter_eq_self]
      intro e he
      simpa using h e he
    have h2 : [z].filter (fun e => ¬ e == z) = [] := by simp
    rw [h1, h2, List.append_nil]
  · exact List.any_eq_true.mpr ⟨z, by simp, beq_self_eq_true z⟩

theorem filter_nodup_multiset : ∀ {es : List Zp} {z : Zp}, es.Nodup → z ∈ es →
    z ::ₘ (↑(es.filter fun e => ¬ e == z) : Multiset Zp) = ↑es := by
  intro es
  induction es with
  | nil => intro z _ h; simp at h
  | cons a es ih =>
    intro z hnd hz
    rcases List.mem_cons.mp hz with rfl | hz
    · have hza : z ∉ es := (List.nodup_cons.mp hnd).1
      have hfix : es.filter (fun e => ¬ e == z) = es := by
        rw [List.filter_eq_self]
        intro e he
        simp only [beq_iff_eq, decide_not, Bool.not_eq_eq_eq_not, Bool.not_true,
          decide_eq_false_iff_not]
        intro heq
        exact hza (heq ▸ he)
      rw [List.filter_cons]
      simp only [beq_self_eq_true, not_true, reduceIte]
      rw [hfix]
      simp [Multiset.cons_coe]
    · have hnd' : es.Nodup := (List.nodup_cons.mp hnd).2
      by_cases haz : a = z
      · subst haz
        exact absurd hz (List.nodup_cons.mp hnd).1
      · rw [List.filter_cons]
        have hcond : (decide ¬(a == z) = true) = true := by
          simp [haz]
        simp only [hcond, reduceIte]
        have step := ih hnd' hz
        calc z ::ₘ (↑(a :: es.filter fun e => ¬ e == z) : Multiset Zp)
            = z ::ₘ (a ::ₘ ↑(es.filter fun e => ¬ e == z)) := by
              simp
          _ = a ::ₘ (z ::ₘ ↑(es.filter fun e => ¬ e == z)) := Multiset.cons_swap z a _
          _ = a ::ₘ (↑es : Multiset Zp) := by rw [step]
          _ = ↑(a :: es) := by rw [Multiset.cons_coe]

/-! ## Child-table update lemmas -/

theorem list_set_get_self : ∀ (cs : List MemPrefixNode) (i : ℕ) (h : i < cs.length),
    cs.set i (cs.get ⟨i, h⟩) = cs := by
  intro cs
  induction cs with
  | nil => intro i h; simp at h
  | cons c cs ih =>
    intro i h
    cases i with
    | zero => simp
    | succ i =>
      simp only [List.set_cons_succ, List.cons.injEq, true_and]
      exact ih i (by simpa using h)

theorem allElemsL_set : ∀ (cs : List MemPrefixNode) (i : ℕ) (c' : MemPrefixNode)
    (h : i < cs.length),
    (↑(MemPrefixNode.allElemsL (cs.set i c')) : Multiset Zp) + ↑(cs.get ⟨i, h⟩).allElems
      = ↑(MemPrefixNode.allElemsL cs) + ↑c'.allElems := by
  intro cs
  induction cs with
  | nil => intro i c' h; simp at h
  | cons c cs ih =>
    intro i c' h
    cases i with
    | zero =>
      simp only [List.set_cons_zero, List.get_eq_getElem, List.getElem_cons_zero,
        MemPrefixNode.allElemsL, ← Multiset.coe_add]
      abel
    | succ i =>
      have h' : i < cs.length := by simpa using h
      have hrec := ih i c' h'
      simp only [List.get_eq_getElem] at hrec
      simp only [List.set_cons_succ, List.get_eq_getElem, List.getElem_cons_succ,
        MemPrefixNode.allElemsL, ← Multiset.coe_add]
      rw [add_assoc, add_assoc, hrec]

theorem countNodesL_set : ∀ (cs : List MemPrefixNode) (i : ℕ) (c' : MemPrefixNode)
    (h : i < cs.length),
    MemPrefixNode.countNodesL (cs.set i c') + (cs.get ⟨i, h⟩).countNodes
      = MemPrefixNode.countNodesL cs + c'.countNodes := by
  intro cs
  induction cs with
  | nil => intro i c' h; simp at h
  | cons c cs ih =>
    intro i c' h
    cases i with
    | zero =>
      simp only [List.set_cons_zero, List.get_eq_getElem, List.getElem_cons_zero,
        MemPrefixNode.countNodesL]
      omega
    | succ i =>
      have h' : i < cs.length := by simpa using h
      have hrec := ih i c' h'
      simp only [List.get_eq_getElem] at hrec
      simp only [List.set_cons_succ, List.get_eq_getElem, List.getElem_cons_succ,
        MemPrefixNode.countNodesL]
      omega

theorem goodL_set {t : MemPrefixTree} {d : ℕ} {cs : List MemPrefixNode} {i : ℕ}
    {c' : MemPrefixNode} (h : GoodL t d cs) (hc : Good t d c') :
    GoodL t d (cs.set i c') := by
  rw [goodL_iff] at h ⊢
  intro x hx
  rcases List.mem_or_eq_of_mem_set hx with hx | rfl
  · exact h x hx
  · exact hc

theorem capL_set {t : MemPrefixTree} {cs : List MemPrefixNode} {i : ℕ}
    {c' : MemPrefixNode} (h : CapL t cs) (hc : Cap t c') :
    CapL t (cs.set i c') := by
  rw [capL_iff] at h ⊢
  intro x hx
  rcases List.mem_or_eq_of_mem_set hx with hx | rfl
  · exact h x hx
  · exact hc

theorem placedHere_set {nbq d : ℕ} {cs : List MemPrefixNode} {i : ℕ}
    {c' : MemPrefixNode} (h : PlacedHere nbq d cs)
    (hc : ∀ e ∈ c'.allElems, nextChildIndex (navOf e) nbq d = i) :
    PlacedHere nbq d (cs.set i c') := by
  intro j hj e he
  have hj' : j < cs.length := by simpa using hj
  by_cases hij : i = j
  · subst hij
    rw [List.get_eq_getElem, List.getElem_set_self hj] at he
    exact hc e he
  · rw [List.get_eq_getElem, List.getElem_set_ne hij _] at he
    have := h j hj' e (by rwa [List.get_eq_getElem])
    exact this

/-! ## Fresh node invariants -/

theorem good_initNode {t : MemPrefixTree} (hpts : t.points.length = t.numSamples.toNat)
    (d : ℕ) (k : ℤ) : Good t d (initNode t k) := by
  rw [initNode, Good]
  refine ⟨?_, by simp [MemPrefixNode.allElemsL], by simp [MemPrefixNode.allElemsL],
    by simp [MemPrefixNode.allElemsL], by simp, ?_, ?_⟩
  · rw [MemPrefixNode.allElemsL, List.append_nil]
    rw [show ((↑([] : List Zp) : Multiset Zp)) = 0 from rfl, svSpec_nil_elems, hpts]
  · intro i hi e he
    simp at hi
  · rw [GoodL]
    trivial

theorem cap_initNode {t : MemPrefixTree} (hst : -1 ≤ t.splitThreshold) (k : ℤ) :
    Cap t (initNode t k) := by
  rw [initNode, Cap]
  refine ⟨by intro _; simp; omega, by simp, ?_⟩
  rw [CapL]
  trivial

/-! ## `NextChild` characterization -/

theorem nextChild_eq_ok {t : MemPrefixTree} {n : MemPrefixNode} {bs : Bitstring}
    {depth ci : ℕ} {c : MemPrefixNode} :
    NextChild t n bs depth = .ok (ci, c) ↔
      n.IsLeaf = false ∧ ci = nextChildIndex bs t.bitQuantum.toNat depth ∧
        n.children[ci]? = some c := by
  rcases hleaf : n.IsLeaf with _ | _
  · rcases hidx : n.children[nextChildIndex bs t.bitQuantum.toNat depth]? with _ | c0
    · simp only [NextChild, hleaf, Bool.false_eq_true, if_false, hidx]
      constructor
      · intro h; exact absurd h (by simp)
      · rintro ⟨-, rfl, hc⟩
        rw [hidx] at hc
        exact absurd hc (by simp)
    · simp only [NextChild, hleaf, Bool.false_eq_true, if_false, hidx]
      constructor
      · intro h
        simp only [Except.ok.injEq, Prod.mk.injEq] at h
        refine ⟨by simp [hleaf], h.1.symm, ?_⟩
        rw [← h.1, hidx, h.2]
      · rintro ⟨-, rfl, hc⟩
        rw [hidx] at hc
        simp only [Option.some.injEq] at hc
        rw [hc]
  · simp only [NextChild, hleaf, if_true]
    simp

/-! ## Correctness of `join` -/

theorem runNode_join_ok (t : MemPrefixTree) : ∀ (fuel : ℕ) (n n' : MemPrefixNode),
    runNode t fuel (.join n) = .ok n' →
    n'.children = [] ∧ n'.svalues = n.svalues ∧ n'.numElements = n.numElements ∧
      n'.key = n.key ∧ (↑n'.elements : Multiset Zp) = ↑n.allElems := by
  intro fuel
  induction fuel with
  | zero => intro n n' h; simp [runNode] at h
  | succ fuel ih =>
    intro n n' h
    rcases n with ⟨k, cs, es, ne, sv⟩
    rcases cs with _ | ⟨c, rest⟩
    · simp only [runNode, MemPrefixNode.children, MemPrefixNode.withChildren] at h
      have hn' : n' = MemPrefixNode.mk k [] es ne sv := by
        cases h
        rfl
      subst hn'
      refine ⟨rfl, rfl, rfl, rfl, ?_⟩
      simp [MemPrefixNode.elements, MemPrefixNode.allElems, MemPrefixNode.allElemsL]
    · simp only [runNode, MemPrefixNode.children, MemPrefixNode.withElements,
        MemPrefixNode.elements, MemPrefixNode.withChildren] at h
      have step := ih _ _ h
      refine ⟨step.1, step.2.1, step.2.2.1, step.2.2.2.1, ?_⟩
      rw [step.2.2.2.2]
      rcases c with ⟨ck, ccs, ces, cne, csv⟩
      simp only [MemPrefixNode.allElems, MemPrefixNode.allElemsL, MemPrefixNode.elements,
        MemPrefixNode.children, allElemsL_append, ← Multiset.coe_add]
      abel

/-! ## The returned-error channel is dead -/

theorem runNode_no_err (t : MemPrefixTree) : ∀ (fuel : ℕ) (cmd : Cmd) (msg : String)
    (s : MemPrefixNode), runNode t fuel cmd ≠ .err msg s := by
  intro fuel
  induction fuel with
  | zero => intro cmd msg s h; simp [runNode] at h
  | succ fuel ih =>
    intro cmd msg s h
    cases cmd with
    | ins n z marray bs depth =>
      simp only [runNode] at h
      repeat' split at h
      all_goals first
        | exact ih _ _ _ (by assumption)
        | simp at h
    | split n depth =>
      simp only [runNode] at h
      repeat' split at h
      all_goals first
        | exact ih _ _ _ (by assumption)
        | simp at h
    | splitLoop n pending depth =>
      simp only [runNode] at h
      repeat' split at h
      all_goals first
        | exact ih _ _ _ (by assumption)
        | exact ih _ _ _ h
        | simp at h
    | rem n z marray bs depth =>
      simp only [runNode] at h
      repeat' split at h
      all_goals first
        | exact ih _ _ _ (by assumption)
        | simp at h
    | join n =>
      simp only [runNode] at h
      repeat' split at h
      all_goals first
        | exact ih _ _ _ (by assumption)
        | exact ih _ _ _ h
        | simp at h

/-! ## Small helper lemmas for the master induction -/

theorem getElem?_some_facts {cs : List MemPrefixNode} {i : ℕ} {c : MemPrefixNode}
    (h : cs[i]? = some c) : ∃ hi : i < cs.length, cs.get ⟨i, hi⟩ = c ∧ c ∈ cs := by
  rcases List.getElem?_eq_some.mp h with ⟨hi, heq⟩
  refine ⟨hi, ?_, ?_⟩
  · rw [List.get_eq_getElem]; exact heq
  · exact heq ▸ List.getElem_mem _

theorem allElems_initNode (t : MemPrefixTree) (k : ℤ) : (initNode t k).allElems = [] := by
  simp [initNode, MemPrefixNode.allElems, MemPrefixNode.allElemsL]

theorem allElemsL_map_initNode (t : MemPrefixTree) : ∀ (l : List ℕ),
    MemPrefixNode.allElemsL (l.map fun i => initNode t (Int.ofNat i)) = [] := by
  intro l
  induction l with
  | nil => simp [MemPrefixNode.allElemsL]
  | cons a l ih =>
    simp only [List.map_cons, MemPrefixNode.allElemsL, allElems_initNode, ih,
      List.nil_append]

theorem goodL_map_initNode (t : MemPrefixTree)
    (hpts : t.points.length = t.numSamples.toNat) (d : ℕ) (l : List ℕ) :
    GoodL t d (l.map fun i => initNode t (Int.ofNat i)) := by
  rw [goodL_iff]
  intro c hc
  rcases List.mem_map.mp hc with ⟨i, -, rfl⟩
  exact good_initNode hpts d (i : ℤ)

theorem capL_map_initNode (t : MemPrefixTree) (hst : -1 ≤ t.splitThreshold)
    (l : List ℕ) : CapL t (l.map fun i => initNode t (Int.ofNat i)) := by
  rw [capL_iff]
  intro c hc
  rcases List.mem_map.mp hc with ⟨i, -, rfl⟩
  exact cap_initNode hst (i : ℤ)

theorem placedHere_map_initNode (t : MemPrefixTree) (nbq d : ℕ) (l : List ℕ) :
    PlacedHere nbq d (l.map fun i => initNode t (Int.ofNat i)) := by
  intro i hi e he
  have hmem : (l.map fun i => initNode t (Int.ofNat i)).get ⟨i, hi⟩ ∈
      l.map fun i => initNode t (Int.ofNat i) := List.get_mem _ i hi
  rcases List.mem_map.mp hmem with ⟨j, -, hj⟩
  rw [← hj, allElems_initNode] at he
  simp at he

theorem mem_of_mem_allElemsL_get {e : Zp} {cs : List MemPrefixNode} {i : ℕ}
    (h : i < cs.length) (he : e ∈ (cs.get ⟨i, h⟩).allElems) :
    e ∈ MemPrefixNode.allElemsL cs :=
  mem_allElemsL_get.mpr ⟨i, h, he⟩

/-- Assembling the child table after a successful child insert: the updated
table keeps the structural invariant, gains exactly `z`, and `z` was not
anywhere below before the insert. -/
theorem assemble_internal (t : MemPrefixTree) (depth : ℕ) (z : Zp)
    {cs2 : List MemPrefixNode} {c c1 : MemPrefixNode} {ci : ℕ}
    (hpl2 : PlacedHere t.bitQuantum.toNat depth cs2)
    (hci : ci = nextChildIndex (navOf z) t.bitQuantum.toNat depth)
    (hcidx : cs2[ci]? = some c)
    (hc1mult : (↑c1.allElems : Multiset Zp) = z ::ₘ ↑c.allElems)
    (hc1notin : z ∉ c.allElems) :
    (↑(MemPrefixNode.allElemsL (cs2.set ci c1)) : Multiset Zp)
        = z ::ₘ ↑(MemPrefixNode.allElemsL cs2) ∧
      z ∉ MemPrefixNode.allElemsL cs2 ∧
      PlacedHere t.bitQuantum.toNat depth (cs2.set ci c1) := by
  obtain ⟨hcilt, hcget, hcmem⟩ := getElem?_some_facts hcidx
  have hznotin : z ∉ MemPrefixNode.allElemsL cs2 := by
    intro hzes
    obtain ⟨j, hj, hzc⟩ := mem_allElemsL_get.mp hzes
    have hjci : j = ci := by
      have := hpl2 j hj z hzc
      rw [← this, hci]
    subst hjci
    rw [hcget] at hzc
    exact hc1notin hzc
  refine ⟨?_, hznotin, ?_⟩
  · have hset := allElemsL_set cs2 ci c1 hcilt
    rw [hcget] at hset
    have hstep : (↑(MemPrefixNode.allElemsL (cs2.set ci c1)) : Multiset Zp) + ↑c.allElems
        = (z ::ₘ ↑(MemPrefixNode.allElemsL cs2)) + ↑c.allElems := by
      rw [hset, hc1mult, Multiset.cons_add, Multiset.add_cons]
    exact add_right_cancel hstep
  · refine placedHere_set hpl2 ?_
    intro e he
    have : e ∈ (↑c1.allElems : Multiset Zp) := Multiset.mem_coe.mpr he
    rw [hc1mult, Multiset.mem_cons] at this
    rcases this with rfl | hin
    · rw [hci]
    · have := hpl2 ci hcilt e (by rw [hcget]; exact Multiset.mem_coe.mp hin)
      exact this

/-! ## The master preservation lemma for `insert`/`split` -/

theorem runNode_ins_master (t : MemPrefixTree)
    (hpts : t.points.length = t.numSamples.toNat) : ∀ fuel : ℕ,
    (∀ n z marray bs depth n',
      marray = t.points.map (fun p => p - z) →
      bs = navOf z →
      z ∉ t.points →
      Good t depth n →
      runNode t fuel (.ins n z marray bs depth) = .ok n' →
      Good t depth n' ∧
      (↑n'.allElems : Multiset Zp) = z ::ₘ (↑n.allElems : Multiset Zp) ∧
      z ∉ n.allElems ∧
      (-1 ≤ t.splitThreshold → t.joinThreshold ≤ t.splitThreshold + 1 →
        Cap t n → Cap t n')) ∧
    (∀ n depth n',
      n.children = [] →
      (∀ e ∈ n.elements, e ∉ t.points) →
      runNode t fuel (.split n depth) = .ok n' →
      n'.key = n.key ∧ n'.elements = [] ∧ n'.svalues = n.svalues ∧
      n'.numElements = n.numElements ∧
      n'.children.length = goShl1 t.bitQuantum ∧
      (↑(MemPrefixNode.allElemsL n'.children) : Multiset Zp) = ↑n.elements ∧
      GoodL t (depth + 1) n'.children ∧
      PlacedHere t.bitQuantum.toNat depth n'.children ∧
      (-1 ≤ t.splitThreshold → t.joinThreshold ≤ t.splitThreshold + 1 →
        CapL t n'.children)) ∧
    (∀ n pending depth n',
      GoodL t (depth + 1) n.children →
      PlacedHere t.bitQuantum.toNat depth n.children →
      (∀ e ∈ pending, e ∉ t.points) →
      runNode t fuel (.splitLoop n pending depth) = .ok n' →
      n'.key = n.key ∧ n'.elements = n.elements ∧ n'.svalues = n.svalues ∧
      n'.numElements = n.numElements ∧
      n'.children.length = n.children.length ∧
      (↑(MemPrefixNode.allElemsL n'.children) : Multiset Zp)
        = ↑pending + ↑(MemPrefixNode.allElemsL n.children) ∧
      GoodL t (depth + 1) n'.children ∧
      PlacedHere t.bitQuantum.toNat depth n'.children ∧
      (-1 ≤ t.splitThreshold → t.joinThreshold ≤ t.splitThreshold + 1 →
        CapL t n.children → CapL t n'.children)) := by
  intro fuel
  induction fuel with
  | zero =>
    refine ⟨?_, ?_, ?_⟩ <;> (intros; simp [runNode] at *)
  | succ fuel ih =>
    obtain ⟨ihIns, ihSplit, ihLoop⟩ := ih
    refine ⟨?_, ?_, ?_⟩
    -- ### insert case
    · rintro ⟨k, cs, es, ne, sv⟩ z marray bs depth n' hm hbs hzp hg hrun
      rw [Good] at hg
      obtain ⟨hsv, hne, hnd, hsf, hie, hpl, hgl⟩ := hg
      have hmlen : marray.length = t.points.length := by rw [hm]; simp
      have hsvlen : sv.length = t.points.length := by
        rw [hsv]; exact svSpec_length _ _
      have hc1 : ¬ marray.length ≠ t.points.length := by simp [hmlen]
      have hc2 : ¬ (MemPrefixNode.mk k cs es ne sv).svalues.length < marray.length := by
        simp [MemPrefixNode.svalues, hsvlen, hmlen]
      simp only [runNode] at hrun
      rw [if_neg hc1, if_neg hc2] at hrun
      simp only [MemPrefixNode.withSvalues, MemPrefixNode.withNumElements,
        MemPrefixNode.svalues, MemPrefixNode.numElements] at hrun
      have hsv1 : updateSvGo sv marray
          = svSpec t.points (z ::ₘ (↑(es ++ MemPrefixNode.allElemsL cs) : Multiset Zp)) := by
        rw [hsv, hm, updateSvGo_add]
      rcases cs with _ | ⟨c0, csrest⟩
      -- #### the node is a leaf
      · simp only [MemPrefixNode.IsLeaf, MemPrefixNode.children, MemPrefixNode.elements,
          List.length_nil, beq_self_eq_true, if_true] at hrun
        by_cases hover : (es.length : ℤ) > t.splitThreshold
        · rw [if_pos hover] at hrun
          -- the leaf splits, then the insert descends into a fresh child
          rcases hsp : runNode t fuel
              (.split (MemPrefixNode.mk k [] es (ne + 1) (updateSvGo sv marray)) depth)
            with n2 | ⟨m2, s2⟩ | ⟨m2, s2⟩ | _ <;> rw [hsp] at hrun <;> try simp at hrun
          obtain ⟨hk2, he2, hsv2, hne2, hlen2, hmult2, hgl2, hpl2, hcap2⟩ :=
            ihSplit (MemPrefixNode.mk k [] es (ne + 1) (updateSvGo sv marray)) depth n2
              rfl (by
                intro e he
                refine hsf e ?_
                simp only [MemPrefixNode.allElemsL, List.append_nil]
                simpa [MemPrefixNode.elements] using he) hsp
          simp only [MemPrefixNode.elements, MemPrefixNode.svalues, MemPrefixNode.key,
            MemPrefixNode.numElements] at hk2 he2 hsv2 hne2 hmult2
          rcases hnc : NextChild t n2 bs depth with m3 | ⟨ci, c⟩ <;> rw [hnc] at hrun <;>
            try simp at hrun
          obtain ⟨hn2leaf, hci, hcidx⟩ := nextChild_eq_ok.mp hnc
          obtain ⟨hcilt, hcget, hcmem⟩ := getElem?_some_facts hcidx
          have hcgood : Good t (depth + 1) c := (goodL_iff.mp hgl2) c hcmem
          rcases hins : runNode t fuel (.ins c z marray bs (depth + 1))
            with c1 | ⟨m4, c1⟩ | ⟨m4, c1⟩ | _ <;> rw [hins] at hrun <;> try simp at hrun
          obtain ⟨hc1good, hc1mult, hc1notin, hc1cap⟩ :=
            ihIns c z marray bs (depth + 1) c1 hm hbs hzp hcgood hins
          have hn'eq : n' = n2.withChildren (n2.children.set ci c1) := by
            cases hrun; rfl
          subst hn'eq
          rcases n2 with ⟨k2, cs2, es2, ne2, sv2⟩
          simp only [MemPrefixNode.key, MemPrefixNode.elements, MemPrefixNode.svalues, MemPrefixNode.numElements, MemPrefixNode.children, MemPrefixNode.withChildren] at hk2 he2 hsv2 hne2 hlen2 hmult2 hgl2 hpl2 hcap2 hci hcidx hcilt hcget hcmem ⊢
          subst he2 hsv2 hne2
          have hnd2 : (MemPrefixNode.allElemsL cs2).Nodup := by
            rw [← Multiset.coe_nodup, hmult2, Multiset.coe_nodup]
            simpa [MemPrefixNode.allElemsL] using hnd
          obtain ⟨hmultset, hznotinL, hplset⟩ :=
            assemble_internal t depth z hpl2 (hbs ▸ hci) hcidx hc1mult hc1notin
          have hznotin : z ∉ es := by
            intro hzes
            apply hznotinL
            rw [← Multiset.mem_coe, hmult2, Multiset.mem_coe]
            exact hzes
          have hEpre : (↑(es ++ MemPrefixNode.allElemsL ([] : List MemPrefixNode)) :
              Multiset Zp) = ↑es := by
            simp [MemPrefixNode.allElemsL]
          have hmult' : (↑(MemPrefixNode.allElemsL (cs2.set ci c1)) : Multiset Zp)
              = z ::ₘ ↑es := by
            rw [hmultset, hmult2]
          refine ⟨?_, ?_, ?_, ?_⟩
          · rw [Good]
            refine ⟨?_, ?_, ?_, ?_, ?_, hplset, goodL_set hgl2 hc1good⟩
            · show updateSvGo sv marray = _
              rw [hsv1]
              congr 1
              rw [show ((↑(([] : List Zp) ++ MemPrefixNode.allElemsL (cs2.set ci c1))) :
                  Multiset Zp) = ↑(MemPrefixNode.allElemsL (cs2.set ci c1)) by simp]
              rw [hmult', hEpre]
            · show ne + 1 = _
              have hcard := congrArg Multiset.card hmult'
              simp only [Multiset.card_cons, Multiset.coe_card] at hcard
              simp only [MemPrefixNode.allElemsL, List.append_nil] at hne
              simp only [List.nil_append]
              rw [hne, hcard]
              push_cast
              ring
            · show (([] : List Zp) ++ MemPrefixNode.allElemsL (cs2.set ci c1)).Nodup
              rw [List.nil_append, ← Multiset.coe_nodup, hmult', Multiset.nodup_cons]
              refine ⟨by simpa using hznotin, ?_⟩
              rw [Multiset.coe_nodup]
              simpa [MemPrefixNode.allElemsL] using hnd
            · intro e he
              rw [List.nil_append] at he
              have : e ∈ (↑(MemPrefixNode.allElemsL (cs2.set ci c1)) : Multiset Zp) :=
                Multiset.mem_coe.mpr he
              rw [hmult', Multiset.mem_cons] at this
              rcases this with rfl | hin
              · exact hzp
              · exact hsf e (by simp [MemPrefixNode.allElemsL,
                  Multiset.mem_coe.mp hin])
            · intro _
              rfl
          · show (↑(([] : List Zp) ++ MemPrefixNode.allElemsL (cs2.set ci c1)) :
                Multiset Zp) = _
            rw [List.nil_append, hmult']
            congr 1
            rw [show (MemPrefixNode.mk k [] es ne sv).allElems = es by
              simp [MemPrefixNode.allElems, MemPrefixNode.allElemsL]]
          · show z ∉ (MemPrefixNode.mk k [] es ne sv).allElems
            rw [show (MemPrefixNode.mk k [] es ne sv).allElems = es by
              simp [MemPrefixNode.allElems, MemPrefixNode.allElemsL]]
            exact hznotin
          · intro hst hjt hcap
            rw [Cap]
            refine ⟨?_, ?_, ?_⟩
            · intro habs
              have : cs2.length = 0 := by rw [← List.length_set cs2 ci c1, habs]; rfl
              omega
            · intro _
              show t.joinThreshold < ne + 1
              simp only [MemPrefixNode.allElemsL, List.append_nil] at hne
              omega
            · exact capL_set (hcap2 hst hjt) (hc1cap hst hjt ((capL_iff.mp (hcap2 hst hjt)) c hcmem))
        · rw [if_neg hover] at hrun
          by_cases hdup : es.any fun nz => nz == z
          · rw [if_pos hdup] at hrun
            simp at hrun
          · rw [if_neg hdup] at hrun
            simp only [MemPrefixNode.withElements, MemPrefixNode.elements] at hrun
            have hn'eq : n' = MemPrefixNode.mk k [] (es ++ [z]) (ne + 1)
                (updateSvGo sv marray) := by cases hrun; rfl
            subst hn'eq
            have hznotin : z ∉ es := by
              intro hzes
              exact hdup (List.any_eq_true.mpr ⟨z, hzes, beq_self_eq_true z⟩)
            have hEpre' : (↑(es ++ MemPrefixNode.allElemsL ([] :
                List MemPrefixNode)) : Multiset Zp) = ↑es := by
              simp [MemPrefixNode.allElemsL]
            have hmultE : (↑((es ++ [z]) ++ MemPrefixNode.allElemsL ([] :
                List MemPrefixNode)) : Multiset Zp) = z ::ₘ ↑es := by
              simp only [MemPrefixNode.allElemsL, List.append_nil, ← Multiset.coe_add]
              rw [show (↑[z] : Multiset Zp) = {z} from rfl, add_comm,
                Multiset.singleton_add]
            refine ⟨?_, ?_, ?_, ?_⟩
            · rw [Good]
              refine ⟨?_, ?_, ?_, ?_, ?_, ?_, ?_⟩
              · show updateSvGo sv marray = _
                rw [hsv1]
                congr 1
                rw [hmultE, hEpre']
              · show ne + 1 = _
                simp only [MemPrefixNode.allElemsL, List.append_nil] at hne ⊢
                simp [hne]
              · show ((es ++ [z]) ++ MemPrefixNode.allElemsL ([] :
                    List MemPrefixNode)).Nodup
                rw [← Multiset.coe_nodup, hmultE, Multiset.nodup_cons]
                refine ⟨by simpa using hznotin, ?_⟩
                rw [Multiset.coe_nodup]
                simpa [MemPrefixNode.allElemsL] using hnd
              · intro e he
                simp only [MemPrefixNode.allElemsL, List.append_nil, List.mem_append,
                  List.mem_singleton] at he
                rcases he with he | rfl
                · exact hsf e (by simp [MemPrefixNode.allElemsL, he])
                · exact hzp
              · intro habs
                simp at habs
              · intro i hi e he
                simp at hi
              · rw [GoodL]
                trivial
            · show (↑((es ++ [z]) ++ MemPrefixNode.allElemsL ([] :
                  List MemPrefixNode)) : Multiset Zp) = _
              rw [hmultE]
              congr 1
              simp [MemPrefixNode.allElems, MemPrefixNode.allElemsL]
            · show z ∉ (MemPrefixNode.mk k [] es ne sv).allElems
              rw [show (MemPrefixNode.mk k [] es ne sv).allElems = es by
                simp [MemPrefixNode.allElems, MemPrefixNode.allElemsL]]
              exact hznotin
            · intro hst hjt hcap
              rw [Cap]
              refine ⟨?_, ?_, ?_⟩
              · intro _
                simp only [List.length_append, List.length_singleton]
                push_cast
                omega
              · intro habs
                exact absurd rfl habs
              · rw [CapL]
                trivial
      -- #### the node is internal
      · simp only [MemPrefixNode.IsLeaf, MemPrefixNode.children, MemPrefixNode.elements,
          List.length_cons] at hrun
        rw [if_neg (by simp)] at hrun
        have hesnil : es = [] := hie (by simp)
        subst hesnil
        rcases hnc : NextChild t (MemPrefixNode.mk k (c0 :: csrest) []
            (ne + 1) (updateSvGo sv marray)) bs depth with m3 | ⟨ci, c⟩ <;>
          rw [hnc] at hrun <;> try simp at hrun
        obtain ⟨hn2leaf, hci, hcidx⟩ := nextChild_eq_ok.mp hnc
        simp only [MemPrefixNode.children] at hcidx
        obtain ⟨hcilt, hcget, hcmem⟩ := getElem?_some_facts hcidx
        have hcgood : Good t (depth + 1) c := (goodL_iff.mp hgl) c hcmem
        rcases hins : runNode t fuel (.ins c z marray bs (depth + 1))
          with c1 | ⟨m4, c1⟩ | ⟨m4, c1⟩ | _ <;> rw [hins] at hrun <;> try simp at hrun
        obtain ⟨hc1good, hc1mult, hc1notin, hc1cap⟩ :=
          ihIns c z marray bs (depth + 1) c1 hm hbs hzp hcgood hins
        have hn'eq : n' = MemPrefixNode.mk k ((c0 :: csrest).set ci c1) []
            (ne + 1) (updateSvGo sv marray) := by
          cases hrun; rfl
        subst hn'eq
        have hnd2 : (MemPrefixNode.allElemsL (c0 :: csrest)).Nodup := by
          simpa using hnd
        obtain ⟨hmultset, hznotinL, hplset⟩ :=
          assemble_internal t depth z hpl (hbs ▸ hci) hcidx hc1mult hc1notin
        refine ⟨?_, ?_, ?_, ?_⟩
        · rw [Good]
          refine ⟨?_, ?_, ?_, ?_, ?_, hplset, goodL_set hgl hc1good⟩
          · show updateSvGo sv marray = _
            rw [hsv1]
            congr 1
            simp only [List.nil_append]
            rw [hmultset]
          · show ne + 1 = _
            rw [List.nil_append]
            have hcard := congrArg Multiset.card hmultset
            simp only [Multiset.card_cons, Multiset.coe_card] at hcard
            simp only [List.nil_append] at hne
            rw [hne, hcard]
            push_cast
            ring
          · rw [List.nil_append, ← Multiset.coe_nodup, hmultset, Multiset.nodup_cons]
            refine ⟨by simpa using hznotinL, by rw [Multiset.coe_nodup]; exact hnd2⟩
          · intro e he
            rw [List.nil_append] at he
            have : e ∈ (↑(MemPrefixNode.allElemsL ((c0 :: csrest).set ci c1)) :
                Multiset Zp) := Multiset.mem_coe.mpr he
            rw [hmultset, Multiset.mem_cons] at this
            rcases this with rfl | hin
            · exact hzp
            · exact hsf e (by simp [Multiset.mem_coe.mp hin])
          · intro _
            rfl
        · show (↑(([] : List Zp) ++ MemPrefixNode.allElemsL ((c0 :: csrest).set ci c1)) :
              Multiset Zp) = _
          simp only [List.nil_append]
          rw [hmultset]
          simp [MemPrefixNode.allElems]
        · show z ∉ (MemPrefixNode.mk k (c0 :: csrest) [] ne sv).allElems
          simpa [MemPrefixNode.allElems] using hznotinL
        · intro hst hjt hcap
          rw [Cap] at hcap
          obtain ⟨hcapl, hcapi, hcapL⟩ := hcap
          rw [Cap]
          refine ⟨?_, ?_, ?_⟩
          · intro habs
            have : ((c0 :: csrest).set ci c1).length = csrest.length + 1 := by simp
            rw [habs] at this
            simp at this
          · intro _
            have := hcapi (by simp)
            show t.joinThreshold < ne + 1
            simp only [MemPrefixNode.numElements] at this
            omega
          · exact capL_set hcapL (hc1cap hst hjt ((capL_iff.mp hcapL) c hcmem))
    -- ### split case
    · rintro ⟨k, cs, es, ne, sv⟩ depth n' hleaf hsfes hrun
      simp only [MemPrefixNode.children] at hleaf
      subst hleaf
      simp only [runNode, MemPrefixNode.withChildren, MemPrefixNode.children,
        MemPrefixNode.elements, List.nil_append] at hrun
      rcases hloop : runNode t fuel (.splitLoop (MemPrefixNode.mk k
          ((List.range (goShl1 t.bitQuantum)).map fun i => initNode t (Int.ofNat i))
          es ne sv) es depth) with n2 | ⟨m2, s2⟩ | ⟨m2, s2⟩ | _ <;>
        rw [hloop] at hrun <;> try simp at hrun
      obtain ⟨hk2, he2, hsv2, hne2, hlen2, hmult2, hgl2, hpl2, hcap2⟩ :=
        ihLoop (MemPrefixNode.mk k
            ((List.range (goShl1 t.bitQuantum)).map fun i => initNode t (Int.ofNat i))
            es ne sv) es depth n2
          (by simpa [MemPrefixNode.children] using
            (goodL_map_initNode t hpts (depth + 1) (List.range (goShl1 t.bitQuantum))))
          (by simpa [MemPrefixNode.children] using
            (placedHere_map_initNode t t.bitQuantum.toNat depth
              (List.range (goShl1 t.bitQuantum))))
          hsfes hloop
      simp only [MemPrefixNode.children, MemPrefixNode.elements, MemPrefixNode.svalues, MemPrefixNode.key, MemPrefixNode.numElements] at hk2 he2 hsv2 hne2 hlen2 hmult2
      have hn'eq : n' = n2.withElements [] := by cases hrun; rfl
      subst hn'eq
      rcases n2 with ⟨k2, cs2, es2, ne2, sv2⟩
      simp only [MemPrefixNode.withElements, MemPrefixNode.key, MemPrefixNode.elements, MemPrefixNode.svalues, MemPrefixNode.numElements, MemPrefixNode.children] at hk2 he2 hsv2 hne2 hlen2 hmult2 hgl2 hpl2 hcap2 ⊢
      refine ⟨hk2, ?_, hsv2, hne2, by simpa using hlen2, ?_, hgl2, hpl2, ?_⟩
      · trivial
      · rw [hmult2, allElemsL_map_initNode]
        simp
      · intro hst hjt
        exact hcap2 hst hjt (by
          simpa [MemPrefixNode.children] using
            (capL_map_initNode t hst (List.range (goShl1 t.bitQuantum))))
    -- ### splitLoop case
    · rintro ⟨k, cs, es, ne, sv⟩ pending depth n' hglcs hplcs hsfp hrun
      simp only [MemPrefixNode.children] at hglcs hplcs
      rcases pending with _ | ⟨e, rest⟩
      · simp only [runNode] at hrun
        have hn'eq : n' = MemPrefixNode.mk k cs es ne sv := by cases hrun; rfl
        subst hn'eq
        refine ⟨rfl, rfl, rfl, rfl, rfl, by simp, hglcs, hplcs, by intro _ _ h; exact h⟩
      · simp only [runNode] at hrun
        rcases hnc : NextChild t (MemPrefixNode.mk k cs es ne sv) (navOf e) depth
          with m3 | ⟨ci, c⟩ <;> rw [hnc] at hrun <;> try simp at hrun
        obtain ⟨hn2leaf, hci, hcidx⟩ := nextChild_eq_ok.mp hnc
        simp only [MemPrefixNode.children] at hcidx
        obtain ⟨hcilt, hcget, hcmem⟩ := getElem?_some_facts hcidx
        rcases hadd : addElementLoop e t.points with _ | marr <;> rw [hadd] at hrun <;>
          try simp at hrun
        obtain ⟨hnz, hmarr⟩ := addElementLoop_eq_some hadd
        have hezp : e ∉ t.points := by
          intro habs
          exact hnz e habs (by ring)
        have hcgood : Good t (depth + 1) c := (goodL_iff.mp hglcs) c hcmem
        rcases hins : runNode t fuel (.ins c e marr (navOf e) (depth + 1))
          with c1 | ⟨m4, c1⟩ | ⟨m4, c1⟩ | _ <;> rw [hins] at hrun
        ·
          obtain ⟨hc1good, hc1mult, hc1notin, hc1cap⟩ :=
            ihIns c e marr (navOf e) (depth + 1) c1 hmarr rfl hezp hcgood hins
          obtain ⟨hmultset, henotinL, hplset⟩ :=
            assemble_internal t depth e hplcs hci hcidx hc1mult hc1notin
          have hglset : GoodL t (depth + 1) (cs.set ci c1) := goodL_set hglcs hc1good
          have hsfrest : ∀ x ∈ rest, x ∉ t.points := fun x hx =>
            hsfp x (List.mem_cons_of_mem e hx)
          simp only [MemPrefixNode.withChildren, MemPrefixNode.children] at hrun
          obtain ⟨hk2, he2, hsv2, hne2, hlen2, hmult2, hgl2, hpl2, hcap2⟩ :=
            ihLoop (MemPrefixNode.mk k (cs.set ci c1) es ne sv) rest depth n'
              (by simpa [MemPrefixNode.children] using hglset)
              (by simpa [MemPrefixNode.children] using hplset)
              hsfrest hrun
          rcases n' with ⟨k3, cs3, es3, ne3, sv3⟩
          simp only [MemPrefixNode.children, MemPrefixNode.key, MemPrefixNode.elements, MemPrefixNode.svalues, MemPrefixNode.numElements] at hk2 he2 hsv2 hne2 hlen2 hmult2 hgl2 hpl2 hcap2 ⊢
          refine ⟨hk2, he2, hsv2, hne2, ?_, ?_, hgl2, hpl2, ?_⟩
          · rw [hlen2]
            simp
          · rw [hmult2, hmultset]
            rw [show (↑(e :: rest) : Multiset Zp) = e ::ₘ ↑rest from rfl]
            rw [Multiset.add_cons, Multiset.cons_add]
          · intro hst hjt hcapcs
            have hcapset : CapL t (cs.set ci c1) :=
              capL_set hcapcs (hc1cap hst hjt ((capL_iff.mp hcapcs) c hcmem))
            exact hcap2 hst hjt hcapset
        · exact absurd hins (runNode_no_err t fuel _ m4 c1)
        · simp at hrun
        · simp at hrun

/-- Assembling the child table after a successful child remove. -/
theorem assemble_internal_rem (t : MemPrefixTree) (depth : ℕ) (z : Zp)
    {cs2 : List MemPrefixNode} {c c1 : MemPrefixNode} {ci : ℕ}
    (hpl2 : PlacedHere t.bitQuantum.toNat depth cs2)
    (hcidx : cs2[ci]? = some c)
    (hc1mult : z ::ₘ (↑c1.allElems : Multiset Zp) = ↑c.allElems) :
    z ::ₘ (↑(MemPrefixNode.allElemsL (cs2.set ci c1)) : Multiset Zp)
        = ↑(MemPrefixNode.allElemsL cs2) ∧
      PlacedHere t.bitQuantum.toNat depth (cs2.set ci c1) := by
  obtain ⟨hcilt, hcget, hcmem⟩ := getElem?_some_facts hcidx
  constructor
  · have hset := allElemsL_set cs2 ci c1 hcilt
    rw [hcget] at hset
    have hstep : (z ::ₘ (↑(MemPrefixNode.allElemsL (cs2.set ci c1)) : Multiset Zp))
        + ↑c1.allElems = ↑(MemPrefixNode.allElemsL cs2) + ↑c1.allElems := by
      rw [Multiset.cons_add, ← Multiset.add_cons, hc1mult, hset]
    exact add_right_cancel hstep
  · refine placedHere_set hpl2 ?_
    intro e he
    have hmem : e ∈ (↑c.allElems : Multiset Zp) := by
      rw [← hc1mult, Multiset.mem_cons]
      exact Or.inr (Multiset.mem_coe.mpr he)
    exact hpl2 ci hcilt e (by rw [hcget]; exact Multiset.mem_coe.mp hmem)

/-! ## The master preservation lemma for `remove`/`join` -/

theorem runNode_rem_master (t : MemPrefixTree)
    (_hpts : t.points.length = t.numSamples.toNat) : ∀ fuel : ℕ,
    ∀ n z marray bs depth n',
      marray = t.points.map (fun p => zinv (p - z)) →
      Good t depth n →
      runNode t fuel (.rem n z marray bs depth) = .ok n' →
      Good t depth n' ∧
      z ::ₘ (↑n'.allElems : Multiset Zp) = ↑n.allElems ∧
      (-1 ≤ t.splitThreshold → t.joinThreshold ≤ t.splitThreshold + 1 →
        Cap t n → Cap t n') := by
  intro fuel
  induction fuel with
  | zero => intro n z marray bs depth n' hm hg hrun; simp [runNode] at hrun
  | succ fuel ih =>
    rintro ⟨k, cs, es, ne, sv⟩ z marray bs depth n' hm hg hrun
    rw [Good] at hg
    obtain ⟨hsv, hne, hnd, hsf, hie, hpl, hgl⟩ := hg
    have hmlen : marray.length = t.points.length := by rw [hm]; simp
    have hsvlen : sv.length = t.points.length := by
      rw [hsv]; exact svSpec_length _ _
    have hc1 : ¬ marray.length ≠ t.points.length := by simp [hmlen]
    have hc2 : ¬ (MemPrefixNode.mk k cs es ne sv).svalues.length < marray.length := by
      simp [MemPrefixNode.svalues, hsvlen, hmlen]
    simp only [runNode] at hrun
    rw [if_neg hc1, if_neg hc2] at hrun
    simp only [MemPrefixNode.withSvalues, MemPrefixNode.withNumElements,
      MemPrefixNode.svalues, MemPrefixNode.numElements] at hrun
    rcases cs with _ | ⟨c0, csrest⟩
    -- #### leaf: remove from the element bag
    · simp only [MemPrefixNode.IsLeaf, MemPrefixNode.children, MemPrefixNode.elements,
        List.length_nil, beq_self_eq_true, if_true] at hrun
      rcases hwr : withRemoved es z with _ | es' <;> rw [hwr] at hrun <;> try simp at hrun
      obtain ⟨hzes, hes'⟩ := withRemoved_eq_some.mp hwr
      have hn'eq : n' = MemPrefixNode.mk k [] es' (ne - 1) (updateSvGo sv marray) := by
        cases hrun; rfl
      subst hn'eq
      have hndes : es.Nodup := by simpa [MemPrefixNode.allElemsL] using hnd
      have hmultes : z ::ₘ (↑es' : Multiset Zp) = ↑es := by
        rw [hes']
        exact filter_nodup_multiset hndes hzes
      have hzpt : z ∉ t.points := hsf z (by simp [MemPrefixNode.allElemsL, hzes])
      have hEpre : (↑(es ++ MemPrefixNode.allElemsL ([] : List MemPrefixNode)) :
          Multiset Zp) = ↑es := by simp [MemPrefixNode.allElemsL]
      refine ⟨?_, ?_, ?_⟩
      · rw [Good]
        refine ⟨?_, ?_, ?_, ?_, ?_, ?_, ?_⟩
        · show updateSvGo sv marray = _
          rw [hsv, hm, show ((↑(es ++ MemPrefixNode.allElemsL ([] :
              List MemPrefixNode))) : Multiset Zp) = z ::ₘ ↑es' from by rw [hEpre, hmultes],
            updateSvGo_del _ _ _ hzpt]
          congr 1
          simp [MemPrefixNode.allElemsL]
        · show ne - 1 = _
          have hcard := congrArg Multiset.card hmultes
          simp only [Multiset.card_cons, Multiset.coe_card] at hcard
          simp only [MemPrefixNode.allElemsL, List.append_nil] at hne ⊢
          omega
        · show (es' ++ MemPrefixNode.allElemsL ([] : List MemPrefixNode)).Nodup
          simp only [MemPrefixNode.allElemsL, List.append_nil]
          rw [hes']
          exact hndes.filter _
        · intro e he
          simp only [MemPrefixNode.allElemsL, List.append_nil] at he
          rw [hes'] at he
          exact hsf e (by simp [MemPrefixNode.allElemsL, List.mem_of_mem_filter he])
        · intro habs
          exact absurd rfl habs
        · intro i hi e he
          simp at hi
        · rw [GoodL]
          trivial
      · show z ::ₘ (↑(es' ++ MemPrefixNode.allElemsL ([] : List MemPrefixNode)) :
            Multiset Zp) = _
        simp only [MemPrefixNode.allElemsL, List.append_nil]
        rw [hmultes]
        congr 1
        simp [MemPrefixNode.allElems, MemPrefixNode.allElemsL]
      · intro hst hjt hcap
        rw [Cap] at hcap
        rw [Cap]
        refine ⟨?_, ?_, ?_⟩
        · intro _
          have h1 := hcap.1 rfl
          simp only [MemPrefixNode.elements] at h1
          have h2 : es'.length ≤ es.length := by
            rw [hes']
            exact List.length_filter_le _ _
          show ((es'.length : ℤ) ≤ t.splitThreshold + 1)
          omega
        · intro habs
          exact absurd rfl habs
        · rw [CapL]
          trivial
    -- #### internal: join or descend
    · simp only [MemPrefixNode.IsLeaf, MemPrefixNode.children, MemPrefixNode.elements,
        List.length_cons] at hrun
      rw [if_neg (by simp)] at hrun
      have hesnil : es = [] := hie (by simp)
      subst hesnil
      by_cases hjoin : ne - 1 ≤ t.joinThreshold
      · rw [if_pos hjoin] at hrun
        rcases hj : runNode t fuel (.join (MemPrefixNode.mk k (c0 :: csrest) []
            (ne - 1) (updateSvGo sv marray))) with n2 | ⟨m2, s2⟩ | ⟨m2, s2⟩ | _ <;>
          rw [hj] at hrun
        · simp only [] at hrun
          obtain ⟨hch2, hsv2, hne2, hk2, hel2⟩ := runNode_join_ok t fuel _ n2 hj
          rcases n2 with ⟨k2, cs2, e2, ne2v, sv2v⟩
          simp only [MemPrefixNode.svalues, MemPrefixNode.numElements, MemPrefixNode.key, MemPrefixNode.allElems, MemPrefixNode.elements, MemPrefixNode.children, List.nil_append] at hch2 hsv2 hne2 hk2 hel2
          simp only [] at hrun
          rcases hwr : withRemoved e2 z with _ | es2 <;> rw [hwr] at hrun <;>
            try simp at hrun
          obtain ⟨hzes, hes2⟩ := withRemoved_eq_some.mp hwr
          have hn'eq : n' = MemPrefixNode.mk k2 cs2 es2 ne2v sv2v := by
            simp only [MemPrefixNode.withElements] at hrun
            cases hrun
            rfl
          subst hn'eq
          subst hch2 hsv2 hne2
          have hndL : (MemPrefixNode.allElemsL (c0 :: csrest)).Nodup := by
            simpa using hnd
          have hnde2 : e2.Nodup := by
            rw [← Multiset.coe_nodup, hel2, Multiset.coe_nodup]
            exact hndL
          have hmultes : z ::ₘ (↑es2 : Multiset Zp) = ↑e2 := by
            rw [hes2]
            exact filter_nodup_multiset hnde2 hzes
          have hzmem : z ∈ MemPrefixNode.allElemsL (c0 :: csrest) := by
            have : z ∈ (↑e2 : Multiset Zp) := Multiset.mem_coe.mpr hzes
            rw [hel2] at this
            exact Multiset.mem_coe.mp this
          have hzpt : z ∉ t.points := hsf z (by simpa using hzmem)
          refine ⟨?_, ?_, ?_⟩
          · rw [Good]
            refine ⟨?_, ?_, ?_, ?_, ?_, ?_, ?_⟩
            · show updateSvGo sv marray = _
              rw [hsv, hm, show ((↑(([] : List Zp) ++ MemPrefixNode.allElemsL
                  (c0 :: csrest))) : Multiset Zp) = z ::ₘ ↑es2 from by
                    rw [List.nil_append, ← hel2, ← hmultes],
                updateSvGo_del _ _ _ hzpt]
              congr 1
              simp [MemPrefixNode.allElemsL]
            · show ne - 1 = _
              have hcard1 := congrArg Multiset.card hel2
              have hcard2 := congrArg Multiset.card hmultes
              simp only [Multiset.card_cons, Multiset.coe_card] at hcard1 hcard2
              simp only [List.nil_append] at hne
              simp only [MemPrefixNode.allElemsL, List.append_nil]
              omega
            · show (es2 ++ MemPrefixNode.allElemsL ([] : List MemPrefixNode)).Nodup
              simp only [MemPrefixNode.allElemsL, List.append_nil]
              rw [hes2]
              exact hnde2.filter _
            · intro e he
              simp only [MemPrefixNode.allElemsL, List.append_nil] at he
              rw [hes2] at he
              have he2m : e ∈ e2 := List.mem_of_mem_filter he
              have : e ∈ (↑e2 : Multiset Zp) := Multiset.mem_coe.mpr he2m
              rw [hel2] at this
              exact hsf e (by simpa using Multiset.mem_coe.mp this)
            · intro habs
              exact absurd rfl habs
            · intro i hi e he
              simp at hi
            · rw [GoodL]
              trivial
          · show z ::ₘ (↑(es2 ++ MemPrefixNode.allElemsL ([] : List MemPrefixNode)) :
                Multiset Zp) = _
            simp only [MemPrefixNode.allElemsL, List.append_nil]
            rw [hmultes, hel2]
            congr 1
          · intro hst hjt hcap
            rw [Cap]
            refine ⟨?_, ?_, ?_⟩
            · intro _
              have hcard1 := congrArg Multiset.card hel2
              have hcard2 := congrArg Multiset.card hmultes
              simp only [Multiset.card_cons, Multiset.coe_card] at hcard1 hcard2
              try simp only [List.nil_append] at hne
              show (es2.length : ℤ) ≤ t.splitThreshold + 1
              omega
            · intro habs
              exact absurd rfl habs
            · rw [CapL]
              trivial
        · simp at hrun
        · simp at hrun
        · simp at hrun
      · rw [if_neg hjoin] at hrun
        rcases hnc : NextChild t (MemPrefixNode.mk k (c0 :: csrest) []
            (ne - 1) (updateSvGo sv marray)) bs depth with m3 | ⟨ci, c⟩ <;>
          rw [hnc] at hrun <;> try simp at hrun
        obtain ⟨hn2leaf, hci, hcidx⟩ := nextChild_eq_ok.mp hnc
        simp only [MemPrefixNode.children] at hcidx
        obtain ⟨hcilt, hcget, hcmem⟩ := getElem?_some_facts hcidx
        have hcgood : Good t (depth + 1) c := (goodL_iff.mp hgl) c hcmem
        rcases hrem : runNode t fuel (.rem c z marray bs (depth + 1))
          with c1 | ⟨m4, c1⟩ | ⟨m4, c1⟩ | _ <;> rw [hrem] at hrun <;> try simp at hrun
        obtain ⟨hc1good, hc1mult, hc1cap⟩ := ih c z marray bs (depth + 1) c1 hm hcgood hrem
        have hn'eq : n' = MemPrefixNode.mk k ((c0 :: csrest).set ci c1) []
            (ne - 1) (updateSvGo sv marray) := by
          cases hrun; rfl
        subst hn'eq
        obtain ⟨hmultset, hplset⟩ := assemble_internal_rem t depth z hpl hcidx hc1mult
        have hzmem : z ∈ (↑(MemPrefixNode.allElemsL (c0 :: csrest)) : Multiset Zp) := by
          rw [← hmultset]
          exact Multiset.mem_cons_self z _
        have hzpt : z ∉ t.points := hsf z (by simpa using Multiset.mem_coe.mp hzmem)
        refine ⟨?_, ?_, ?_⟩
        · rw [Good]
          refine ⟨?_, ?_, ?_, ?_, ?_, hplset, goodL_set hgl hc1good⟩
          · show updateSvGo sv marray = _
            rw [hsv, hm, show ((↑(([] : List Zp) ++ MemPrefixNode.allElemsL
                (c0 :: csrest))) : Multiset Zp) = z ::ₘ
                ↑(MemPrefixNode.allElemsL ((c0 :: csrest).set ci c1)) from by
                  rw [List.nil_append, ← hmultset],
              updateSvGo_del _ _ _ hzpt]
            try congr 1
            try simp only [List.nil_append]
          · show ne - 1 = _
            have hcard := congrArg Multiset.card hmultset
            simp only [Multiset.card_cons, Multiset.coe_card] at hcard
            simp only [List.nil_append] at hne ⊢
            omega
          · rw [List.nil_append, ← Multiset.coe_nodup]
            have hndL : (↑(MemPrefixNode.allElemsL (c0 :: csrest)) : Multiset Zp).Nodup := by
              rw [Multiset.coe_nodup]
              simpa using hnd
            rw [← hmultset, Multiset.nodup_cons] at hndL
            exact hndL.2
          · intro e he
            rw [List.nil_append] at he
            have : e ∈ (↑(MemPrefixNode.allElemsL ((c0 :: csrest).set ci c1)) :
                Multiset Zp) := Multiset.mem_coe.mpr he
            have : e ∈ (↑(MemPrefixNode.allElemsL (c0 :: csrest)) : Multiset Zp) := by
              rw [← hmultset]
              exact Multiset.mem_cons_of_mem this
            exact hsf e (by simpa using Multiset.mem_coe.mp this)
          · intro _
            rfl
        · show z ::ₘ (↑(([] : List Zp) ++ MemPrefixNode.allElemsL
              ((c0 :: csrest).set ci c1)) : Multiset Zp) = _
          simp only [List.nil_append]
          rw [hmultset]
          simp [MemPrefixNode.allElems]
        · intro hst hjt hcap
          rw [Cap] at hcap
          obtain ⟨hcapl, hcapi, hcapL⟩ := hcap
          rw [Cap]
          refine ⟨?_, ?_, ?_⟩
          · intro habs
            have : ((c0 :: csrest).set ci c1).length = csrest.length + 1 := by simp
            rw [habs] at this
            simp at this
          · intro _
            show t.joinThreshold < ne - 1
            omega
          · exact capL_set hcapL (hc1cap hst hjt ((capL_iff.mp hcapL) c hcmem))

/-! ## Configuration-transport and cancellation lemmas -/

theorem Zpoints_length (n : ℕ) : (Zpoints n).length = n := by
  simp [Zpoints]

theorem countNodesL_ge_length : ∀ cs : List MemPrefixNode,
    cs.length ≤ MemPrefixNode.countNodesL cs := by
  intro cs
  induction cs with
  | nil => simp [MemPrefixNode.countNodesL]
  | cons c cs ih =>
    rw [MemPrefixNode.countNodesL]
    have := countNodes_pos c
    simp only [List.length_cons]
    omega

theorem good_congr {t t' : MemPrefixTree} (hp : t'.points = t.points)
    (hb : t'.bitQuantum = t.bitQuantum) :
    ∀ n : MemPrefixNode, ∀ d, Good t d n → Good t' d n := by
  intro n
  induction n using MemPrefixNode.indOn with
  | h k cs es ne sv ih =>
    intro d hg
    rw [Good] at hg ⊢
    obtain ⟨h1, h2, h3, h4, h5, h6, h7⟩ := hg
    refine ⟨by rw [hp]; exact h1, h2, h3, by rw [hp]; exact h4, h5, by rw [hb]; exact h6, ?_⟩
    rw [goodL_iff] at h7 ⊢
    intro c hc
    exact ih c hc (d + 1) (h7 c hc)

theorem cap_congr {t t' : MemPrefixTree} (hst : t'.splitThreshold = t.splitThreshold)
    (hjt : t'.joinThreshold = t.joinThreshold) :
    ∀ n : MemPrefixNode, Cap t n → Cap t' n := by
  intro n
  induction n using MemPrefixNode.indOn with
  | h k cs es ne sv ih =>
    intro hg
    rw [Cap] at hg ⊢
    obtain ⟨h1, h2, h3⟩ := hg
    refine ⟨by rw [hst]; exact h1, by rw [hjt]; exact h2, ?_⟩
    rw [capL_iff] at h3 ⊢
    intro c hc
    exact ih c hc (h3 c hc)

theorem updateSvGo_cons (s m : Zp) (sv ms : List Zp) :
    updateSvGo (s :: sv) (m :: ms) = (s * m) :: updateSvGo sv ms := by
  simp [updateSvGo]

theorem updateSvGo_cancel (z : Zp) : ∀ (pts sv : List Zp), sv.length = pts.length →
    (∀ p ∈ pts, p - z ≠ 0) →
    updateSvGo (updateSvGo sv (pts.map fun p => p - z))
      (pts.map fun p => zinv (p - z)) = sv := by
  intro pts
  induction pts with
  | nil =>
    intro sv h _
    have hnil : sv = [] := List.eq_nil_of_length_eq_zero h
    subst hnil
    simp [updateSvGo]
  | cons p pts ih =>
    intro sv h hnz
    rcases sv with _ | ⟨s, sv⟩
    · simp at h
    · have hpz : p - z ≠ 0 := hnz p (List.mem_cons_self p pts)
      simp only [List.map_cons, updateSvGo_cons]
      rw [mul_assoc, zinv_cancel _ hpz, mul_one]
      congr 1
      exact ih sv (by simpa using h) fun q hq => hnz q (List.mem_cons_of_mem p hq)

/-! ## Tree-level preservation -/

theorem insert_ok_inv {t t' : MemPrefixTree} {fuel : ℕ} {z : Zp}
    (hpts : t.points.length = t.numSamples.toNat)
    (hg : Good t 0 t.root)
    (hok : t.Insert fuel z = .ok t') :
    t'.splitThreshold = t.splitThreshold ∧ t'.joinThreshold = t.joinThreshold ∧
    t'.bitQuantum = t.bitQuantum ∧ t'.numSamples = t.numSamples ∧
    t'.points = t.points ∧ z ∉ t.points ∧
    Good t' 0 t'.root ∧
    (↑t'.root.allElems : Multiset Zp) = z ::ₘ (↑t.root.allElems : Multiset Zp) ∧
    z ∉ t.root.allElems ∧
    (-1 ≤ t.splitThreshold → t.joinThreshold ≤ t.splitThreshold + 1 →
      Cap t t.root → Cap t' t'.root) := by
  rw [MemPrefixTree.Insert] at hok
  rcases hadd : AddElementArray t z with _ | marray
  · rw [hadd] at hok
    exact absurd hok (by simp)
  · rw [hadd] at hok
    simp only [] at hok
    rw [AddElementArray] at hadd
    obtain ⟨hnz, hm⟩ := addElementLoop_eq_some hadd
    have hzp : z ∉ t.points := fun hmem => (hnz z hmem) (sub_self z)
    rcases hrun : runNode t fuel (.ins t.root z marray (navOf z) 0) with r | ⟨m, r⟩ | ⟨m, r⟩ | _
    · rw [hrun] at hok
      cases hok
      have key := (runNode_ins_master t hpts fuel).1 t.root z marray (navOf z) 0 r hm rfl hzp hg hrun
      refine ⟨rfl, rfl, rfl, rfl, rfl, hzp, ?_, ?_, ?_, ?_⟩
      · exact @good_congr t { t with root := r } rfl rfl r 0 key.1
      · exact key.2.1
      · exact key.2.2.1
      · intro h1 h2 hc
        exact @cap_congr t { t with root := r } rfl rfl r (key.2.2.2 h1 h2 hc)
    · rw [hrun] at hok
      exact absurd hok (by simp)
    · rw [hrun] at hok
      exact absurd hok (by simp)
    · rw [hrun] at hok
      exact absurd hok (by simp)

theorem remove_ok_inv {t t' : MemPrefixTree} {fuel : ℕ} {z : Zp}
    (hpts : t.points.length = t.numSamples.toNat)
    (hg : Good t 0 t.root)
    (hok : t.Remove fuel z = .ok t') :
    t'.splitThreshold = t.splitThreshold ∧ t'.joinThreshold = t.joinThreshold ∧
    t'.bitQuantum = t.bitQuantum ∧ t'.numSamples = t.numSamples ∧
    t'.points = t.points ∧
    Good t' 0 t'.root ∧
    z ::ₘ (↑t'.root.allElems : Multiset Zp) = (↑t.root.allElems : Multiset Zp) ∧
    (-1 ≤ t.splitThreshold → t.joinThreshold ≤ t.splitThreshold + 1 →
      Cap t t.root → Cap t' t'.root) := by
  rw [MemPrefixTree.Remove] at hok
  rcases hrun : runNode t fuel (.rem t.root z (DelElementArray t z) (navOf z) 0)
    with r | ⟨m, r⟩ | ⟨m, r⟩ | _
  · rw [hrun] at hok
    cases hok
    have key := runNode_rem_master t hpts fuel t.root z (DelElementArray t z) (navOf z) 0 r
      rfl hg hrun
    refine ⟨rfl, rfl, rfl, rfl, rfl, ?_, ?_, ?_⟩
    · exact @good_congr t { t with root := r } rfl rfl r 0 key.1
    · exact key.2.1
    · intro h1 h2 hc
      exact @cap_congr t { t with root := r } rfl rfl r (key.2.2 h1 h2 hc)
  · rw [hrun] at hok
    exact absurd hok (by simp)
  · rw [hrun] at hok
    exact absurd hok (by simp)
  · rw [hrun] at hok
    exact absurd hok (by simp)

theorem runOps_inv {fuel : ℕ} : ∀ (ops : List Op) (t t' : MemPrefixTree),
    t.points.length = t.numSamples.toNat → Good t 0 t.root →
    runOps fuel t ops = some t' →
    t'.splitThreshold = t.splitThreshold ∧ t'.joinThreshold = t.joinThreshold ∧
    t'.bitQuantum = t.bitQuantum ∧ t'.numSamples = t.numSamples ∧
    t'.points = t.points ∧ Good t' 0 t'.root ∧
    (-1 ≤ t.splitThreshold → t.joinThreshold ≤ t.splitThreshold + 1 →
      Cap t t.root → Cap t' t'.root) := by
  intro ops
  induction ops with
  | nil =>
    intro t t' hpts hg h
    rw [runOps] at h
    cases h
    exact ⟨rfl, rfl, rfl, rfl, rfl, hg, fun _ _ hc => hc⟩
  | cons op ops ih =>
    intro t t' hpts hg h
    rcases op with z | z
    · have h2 : (match t.Insert fuel z with
          | GoRes.ok t1 => runOps fuel t1 ops
          | _ => none) = some t' := h
      clear h
      rcases hstep : t.Insert fuel z with t1 | ⟨m, t1⟩ | ⟨m, t1⟩ | _
      · rw [hstep] at h2
        have h' : runOps fuel t1 ops = some t' := h2
        obtain ⟨e1, e2, e3, e4, e5, -, hg1, -, -, hcap1⟩ := insert_ok_inv hpts hg hstep
        have hpts1 : t1.points.length = t1.numSamples.toNat := by rw [e5, e4]; exact hpts
        obtain ⟨f1, f2, f3, f4, f5, hg', hcap'⟩ := ih t1 t' hpts1 hg1 h'
        refine ⟨f1.trans e1, f2.trans e2, f3.trans e3, f4.trans e4, f5.trans e5, hg', ?_⟩
        intro h1 h2 hc
        exact hcap' (by rw [e1]; exact h1) (by rw [e2, e1]; exact h2) (hcap1 h1 h2 hc)
      · rw [hstep] at h2
        exact Option.noConfusion h2
      · rw [hstep] at h2
        exact Option.noConfusion h2
      · rw [hstep] at h2
        exact Option.noConfusion h2
    · have h2 : (match t.Remove fuel z with
          | GoRes.ok t1 => runOps fuel t1 ops
          | _ => none) = some t' := h
      clear h
      rcases hstep : t.Remove fuel z with t1 | ⟨m, t1⟩ | ⟨m, t1⟩ | _
      · rw [hstep] at h2
        have h' : runOps fuel t1 ops = some t' := h2
        obtain ⟨e1, e2, e3, e4, e5, hg1, -, hcap1⟩ := remove_ok_inv hpts hg hstep
        have hpts1 : t1.points.length = t1.numSamples.toNat := by rw [e5, e4]; exact hpts
        obtain ⟨f1, f2, f3, f4, f5, hg', hcap'⟩ := ih t1 t' hpts1 hg1 h'
        refine ⟨f1.trans e1, f2.trans e2, f3.trans e3, f4.trans e4, f5.trans e5, hg', ?_⟩
        intro h1 h2 hc
        exact hcap' (by rw [e1]; exact h1) (by rw [e2, e1]; exact h2) (hcap1 h1 h2 hc)
      · rw [hstep] at h2
        exact Option.noConfusion h2
      · rw [hstep] at h2
        exact Option.noConfusion h2
      · rw [hstep] at h2
        exact Option.noConfusion h2

/-! ## `Init` establishes the invariants -/

theorem init_pts_len (t : MemPrefixTree) :
    (t.Init).points.length = (t.Init).numSamples.toNat := by
  simp [MemPrefixTree.Init, Zpoints_length]

theorem init_good (t : MemPrefixTree) : Good t.Init 0 (t.Init).root :=
  good_initNode (init_pts_len t) 0 0

theorem init_cap (t : MemPrefixTree) (hst : -1 ≤ (t.Init).splitThreshold) :
    Cap t.Init (t.Init).root :=
  cap_initNode hst 0

/-! ## Insert followed by remove restores the node exactly -/

theorem runNode_restore (t : MemPrefixTree) (z : Zp) (hzp : z ∉ t.points) :
    ∀ fuel1 : ℕ, ∀ (fuel2 : ℕ) (n : MemPrefixNode) (bs : Bitstring) (depth : ℕ)
      (n1 n2 : MemPrefixNode),
      Good t depth n → Cap t n →
      runNode t fuel1 (.ins n z (t.points.map fun p => p - z) bs depth) = .ok n1 →
      n1.countNodes = n.countNodes →
      runNode t fuel2 (.rem n1 z (t.points.map fun p => zinv (p - z)) bs depth) = .ok n2 →
      n2 = n := by
  have hnz : ∀ p ∈ t.points, p - z ≠ 0 := by
    intro p hp h0
    exact hzp ((sub_eq_zero.mp h0) ▸ hp)
  intro fuel1
  induction fuel1 with
  | zero =>
    intro fuel2 n bs depth n1 n2 _ _ hins _ _
    simp [runNode] at hins
  | succ fuel1 ih =>
    intro fuel2 n bs depth n1 n2 hg hcap hins hcnt hrem
    rcases n with ⟨k, cs, es, ne, sv⟩
    rw [Good] at hg
    obtain ⟨hsv, hne, hnd, hsf, hie, hpl, hgl⟩ := hg
    rw [Cap] at hcap
    obtain ⟨hcleaf, hcint, hcl⟩ := hcap
    have hsvlen : sv.length = t.points.length := by rw [hsv]; exact svSpec_length _ _
    have hc1 : ¬ (t.points.map fun p => p - z).length ≠ t.points.length := by simp
    have hc2 : ¬ (MemPrefixNode.mk k cs es ne sv).svalues.length <
        (t.points.map fun p => p - z).length := by
      simp [MemPrefixNode.svalues, hsvlen]
    have hsv1len : (updateSvGo sv (t.points.map fun p => p - z)).length
        = t.points.length := by
      simp [updateSvGo, hsvlen]
    have hcanc : updateSvGo (updateSvGo sv (t.points.map fun p => p - z))
        (t.points.map fun p => zinv (p - z)) = sv :=
      updateSvGo_cancel z t.points sv hsvlen hnz
    simp only [runNode] at hins
    rw [if_neg hc1, if_neg hc2] at hins
    simp only [MemPrefixNode.withSvalues, MemPrefixNode.withNumElements,
      MemPrefixNode.svalues, MemPrefixNode.numElements] at hins
    rcases cs with _ | ⟨c0, csrest⟩
    -- #### the node is a leaf
    · simp only [MemPrefixNode.IsLeaf, MemPrefixNode.children, MemPrefixNode.elements,
        List.length_nil, beq_self_eq_true, if_true] at hins
      by_cases hover : (es.length : ℤ) > t.splitThreshold
      · -- a split would strictly increase the node count, contradicting `hcnt`
        exfalso
        rw [if_pos hover] at hins
        rcases hsp : runNode t fuel1
            (.split (MemPrefixNode.mk k [] es (ne + 1)
              (updateSvGo sv (t.points.map fun p => p - z))) depth)
          with n2s | ⟨m2, s2⟩ | ⟨m2, s2⟩ | _ <;> rw [hsp] at hins <;> try simp at hins
        rcases hnc : NextChild t n2s bs depth with m3 | ⟨ci, c⟩ <;> rw [hnc] at hins <;>
          try simp at hins
        obtain ⟨hn2leaf, hci, hcidx⟩ := nextChild_eq_ok.mp hnc
        obtain ⟨hcilt, hcget, hcmem⟩ := getElem?_some_facts hcidx
        rcases hrc : runNode t fuel1 (.ins c z (t.points.map fun p => p - z) bs (depth + 1))
          with c1 | ⟨m4, c1⟩ | ⟨m4, c1⟩ | _ <;> rw [hrc] at hins <;> try simp at hins
        have hn1eq : n1 = n2s.withChildren (n2s.children.set ci c1) := by
          cases hins; rfl
        subst hn1eq
        rcases n2s with ⟨k2, cs2, es2, ne2, sv2⟩
        simp only [MemPrefixNode.children] at hcilt
        have hlen1 : 1 ≤ cs2.length := by omega
        have hcnt1 : (cs2.set ci c1).length ≤ MemPrefixNode.countNodesL (cs2.set ci c1) :=
          countNodesL_ge_length _
        simp only [MemPrefixNode.withChildren, MemPrefixNode.countNodes,
          MemPrefixNode.countNodesL, MemPrefixNode.children, List.length_set] at hcnt hcnt1
        omega
      · rw [if_neg hover] at hins
        rcases hany : es.any (fun nz => nz == z) with _ | _ <;> rw [hany] at hins <;>
          try simp at hins
        have hfresh : ∀ e ∈ es, e ≠ z := by
          intro e he heq
          have : es.any (fun nz => nz == z) = true :=
            List.any_eq_true.mpr ⟨e, he, by rw [heq]; exact beq_self_eq_true z⟩
          rw [hany] at this
          exact Bool.noConfusion this
        have hn1eq : n1 = MemPrefixNode.mk k [] (es ++ [z]) (ne + 1)
            (updateSvGo sv (t.points.map fun p => p - z)) := by
          cases hins; rfl
        subst hn1eq
        -- now run the removal on the extended leaf
        rcases fuel2 with _ | fuel2
        · simp [runNode] at hrem
        have hd1 : ¬ (t.points.map fun p => zinv (p - z)).length ≠ t.points.length := by
          simp
        have hd2 : ¬ (MemPrefixNode.mk k [] (es ++ [z]) (ne + 1)
            (updateSvGo sv (t.points.map fun p => p - z))).svalues.length <
            (t.points.map fun p => zinv (p - z)).length := by
          simp [MemPrefixNode.svalues, hsv1len]
        simp only [runNode] at hrem
        rw [if_neg hd1, if_neg hd2] at hrem
        simp only [MemPrefixNode.withSvalues, MemPrefixNode.withNumElements,
          MemPrefixNode.svalues, MemPrefixNode.numElements, MemPrefixNode.IsLeaf,
          MemPrefixNode.children, MemPrefixNode.elements, List.length_nil,
          beq_self_eq_true, if_true] at hrem
        rw [withRemoved_append_fresh hfresh] at hrem
        have hn2eq : n2 = MemPrefixNode.mk k [] es (ne + 1 - 1)
            (updateSvGo (updateSvGo sv (t.points.map fun p => p - z))
              (t.points.map fun p => zinv (p - z))) := by
          cases hrem; rfl
        subst hn2eq
        rw [hcanc]
        have : ne + 1 - 1 = ne := by ring
        rw [this]
    -- #### the node is internal
    · have hes : es = [] := hie (by simp)
      subst hes
      simp only [MemPrefixNode.IsLeaf, MemPrefixNode.children, List.length_cons] at hins
      rw [if_neg (by simp)] at hins
      rcases hnc : NextChild t (MemPrefixNode.mk k (c0 :: csrest) [] (ne + 1)
          (updateSvGo sv (t.points.map fun p => p - z))) bs depth
        with m3 | ⟨ci, c⟩ <;> rw [hnc] at hins <;> try simp at hins
      obtain ⟨hn1leaf, hci, hcidx⟩ := nextChild_eq_ok.mp hnc
      simp only [MemPrefixNode.children] at hcidx
      obtain ⟨hcilt, hcget, hcmem⟩ := getElem?_some_facts hcidx
      rcases hrc : runNode t fuel1 (.ins c z (t.points.map fun p => p - z) bs (depth + 1))
        with c1 | ⟨m4, c1⟩ | ⟨m4, c1⟩ | _ <;> rw [hrc] at hins <;> try simp at hins
      have hn1eq : n1 = MemPrefixNode.mk k ((c0 :: csrest).set ci c1) [] (ne + 1)
          (updateSvGo sv (t.points.map fun p => p - z)) := by
        cases hins; rfl
      subst hn1eq
      -- the preserved node count forces the child count to be preserved
      have hcset := countNodesL_set (c0 :: csrest) ci c1 hcilt
      rw [hcget] at hcset
      simp only [MemPrefixNode.countNodes, MemPrefixNode.children] at hcnt
      have hccnt : c1.countNodes = c.countNodes := by omega
      -- unfold the removal
      rcases fuel2 with _ | fuel2
      · simp [runNode] at hrem
      have hd1 : ¬ (t.points.map fun p => zinv (p - z)).length ≠ t.points.length := by
        simp
      have hd2 : ¬ (MemPrefixNode.mk k ((c0 :: csrest).set ci c1) [] (ne + 1)
          (updateSvGo sv (t.points.map fun p => p - z))).svalues.length <
          (t.points.map fun p => zinv (p - z)).length := by
        simp [MemPrefixNode.svalues, hsv1len]
      simp only [runNode] at hrem
      rw [if_neg hd1, if_neg hd2] at hrem
      simp only [MemPrefixNode.withSvalues, MemPrefixNode.withNumElements,
        MemPrefixNode.svalues, MemPrefixNode.numElements, MemPrefixNode.IsLeaf,
        MemPrefixNode.children, MemPrefixNode.elements, List.length_set,
        List.length_cons] at hrem
      rw [if_neg (by simp)] at hrem
      have hjoin : ¬ (ne + 1 - 1 ≤ t.joinThreshold) := by
        have := hcint (by simp)
        omega
      rw [if_neg hjoin] at hrem
      rcases hnc2 : NextChild t (MemPrefixNode.mk k ((c0 :: csrest).set ci c1) []
          (ne + 1 - 1) (updateSvGo (updateSvGo sv (t.points.map fun p => p - z))
            (t.points.map fun p => zinv (p - z)))) bs depth
        with m5 | ⟨ci2, c2⟩ <;> rw [hnc2] at hrem <;> try simp at hrem
      obtain ⟨-, hci2, hcidx2⟩ := nextChild_eq_ok.mp hnc2
      have hci2eq : ci2 = ci := by rw [hci2, hci]
      rw [hci2eq] at hcidx2 hrem
      simp only [MemPrefixNode.children] at hcidx2
      have hcidx2' : ((c0 :: csrest).set ci c1)[ci]? = some c1 := by
        rw [List.getElem?_eq_getElem (by simpa using hcilt)]
        exact congrArg some (List.getElem_set_self (by simpa using hcilt))
      rw [hcidx2'] at hcidx2
      have hc2eq : c2 = c1 := by
        exact (Option.some.injEq _ _).mp hcidx2.symm
      rw [hc2eq] at hrem
      rcases hrc2 : runNode t fuel2 (.rem c1 z (t.points.map fun p => zinv (p - z))
          bs (depth + 1))
        with c2' | ⟨m6, c2'⟩ | ⟨m6, c2'⟩ | _ <;> rw [hrc2] at hrem
      · have hcgood : Good t (depth + 1) c := (goodL_iff.mp hgl) c hcmem
        have hccap : Cap t c := (capL_iff.mp hcl) c hcmem
        have hrestored : c2' = c :=
          ih fuel2 c bs (depth + 1) c1 c2' hcgood hccap hrc hccnt hrc2
        have hn2eq : n2 = MemPrefixNode.mk k (((c0 :: csrest).set ci c1).set ci c2') []
            ne (updateSvGo (updateSvGo sv (t.points.map fun p => p - z))
              (t.points.map fun p => zinv (p - z))) := by
          cases hrem; rfl
        subst hn2eq
        rw [hrestored, List.set_set, ← hcget, list_set_get_self, hcanc]
      · exact absurd hrem (by simp)
      · exact absurd hrem (by simp)
      · exact absurd hrem (by simp)

/-! ## The bit-OR folds compute the spec's chunk sum -/

theorem or_two_pow_of_lt : ∀ (j a : ℕ), a < 2 ^ j → a ||| 2 ^ j = a + 2 ^ j := by
  intro j
  induction j with
  | zero =>
    intro a ha
    interval_cases a
    decide
  | succ j ih =>
    intro a ha
    have ha2 : a / 2 < 2 ^ j := by
      rw [pow_succ] at ha
      omega
    have hbit : Nat.bit (a % 2 == 1) (a / 2) = a := by
      rw [Nat.bit_val]
      rcases Nat.mod_two_eq_zero_or_one a with h | h <;> simp [h] <;> omega
    have hpow : Nat.bit false (2 ^ j) = 2 ^ (j + 1) := by
      rw [Nat.bit_val, pow_succ]
      simp [mul_comm]
    calc a ||| 2 ^ (j + 1)
        = Nat.bit (a % 2 == 1) (a / 2) ||| Nat.bit false (2 ^ j) := by rw [hbit, hpow]
      _ = Nat.bit ((a % 2 == 1) || false) (a / 2 ||| 2 ^ j) := Nat.lor_bit _ _ _ _
      _ = Nat.bit (a % 2 == 1) (a / 2 + 2 ^ j) := by rw [Bool.or_false, ih _ ha2]
      _ = a + 2 ^ (j + 1) := by
          rw [Nat.bit_val, pow_succ]
          rcases Nat.mod_two_eq_zero_or_one a with h | h <;> simp [h] <;> omega

theorem sum_ite_two_pow_lt (f : ℕ → Bool) : ∀ n : ℕ,
    (∑ j ∈ Finset.range n, if f j then 2 ^ j else 0) < 2 ^ n := by
  intro n
  induction n with
  | zero => simp
  | succ n ih =>
    rw [Finset.sum_range_succ, pow_succ]
    by_cases h : f n <;> simp [h] <;> omega

theorem foldl_or_spec (f : ℕ → Bool) : ∀ nbq : ℕ,
    (List.range nbq).foldl (fun acc j => if f j then acc ||| (1 <<< j) else acc) 0 =
      ∑ j ∈ Finset.range nbq, if f j then 2 ^ j else 0 := by
  intro nbq
  induction nbq with
  | zero => simp
  | succ nbq ih =>
    rw [List.range_succ, List.foldl_append, List.foldl_cons, List.foldl_nil, ih,
      Finset.sum_range_succ]
    by_cases h : f nbq
    · rw [if_pos h, if_pos h, Nat.shiftLeft_eq, one_mul,
        or_two_pow_of_lt _ _ (sum_ite_two_pow_lt f nbq)]
    · rw [if_neg h, if_neg h, add_zero]

/-! ## `Node`'s error branch is unreachable -/

theorem nodeLoop_no_err (t : MemPrefixTree) : ∀ (fuel : ℕ) (n : MemPrefixNode)
    (bs : Bitstring) (i : ℕ) (msg : String), nodeLoop t fuel n bs i ≠ .err msg := by
  intro fuel
  induction fuel with
  | zero =>
    intro n bs i msg h
    simp [nodeLoop] at h
  | succ fuel ih =>
    intro n bs i msg h
    rw [nodeLoop] at h
    by_cases hc : i < bs.bitLen ∧ n.IsLeaf = false
    · rw [if_pos hc] at h
      rw [if_neg (by simp [hc.2])] at h
      rcases hidx : n.children[nodeChildIndex bs t.bitQuantum.toNat i]? with _ | c
      · rw [hidx] at h
        exact NodeRes.noConfusion h
      · rw [hidx] at h
        exact ih _ _ _ _ h
    · rw [if_neg hc] at h
      exact NodeRes.noConfusion h

/-! ## Subtree occurrences and the split partition -/

theorem good_subnode {t : MemPrefixTree} : ∀ {n : MemPrefixNode} {d : ℕ}
    {m : MemPrefixNode} {dm : ℕ}, SubnodeAt n d m dm → Good t d n → Good t dm m := by
  intro n d m dm hs
  induction hs with
  | refl n d => exact id
  | child n d c m dm hc hsub ih =>
    intro hg
    apply ih
    rcases n with ⟨k, cs, es, ne, sv⟩
    rw [Good] at hg
    simp only [MemPrefixNode.children] at hc
    exact (goodL_iff.mp hg.2.2.2.2.2.2) c hc

theorem placed_countP : ∀ (cs : List MemPrefixNode) (F : Zp → ℕ),
    (∀ j, ∀ h : j < cs.length, ∀ e ∈ (cs.get ⟨j, h⟩).allElems, F e = j) →
    ∀ i : ℕ, (MemPrefixNode.allElemsL cs).countP (fun e => F e == i) =
      (match cs[i]? with | some c => c.allElems.length | none => 0) := by
  intro cs
  induction cs with
  | nil =>
    intro F hF i
    simp [MemPrefixNode.allElemsL]
  | cons c cs ih =>
    intro F hF i
    rw [MemPrefixNode.allElemsL, List.countP_append]
    have hc0 : ∀ e ∈ c.allElems, F e = 0 := fun e he => hF 0 (by simp) e (by simpa using he)
    have hFtail : ∀ j, ∀ h : j < cs.length,
        ∀ e ∈ (cs.get ⟨j, h⟩).allElems, F e - 1 = j := by
      intro j hj e he
      have := hF (j + 1) (by simpa using Nat.succ_lt_succ hj) e (by simpa using he)
      omega
    have hmemF : ∀ e ∈ MemPrefixNode.allElemsL cs, ∃ j, F e = j + 1 := by
      intro e he
      obtain ⟨j, hj, hmem⟩ := mem_allElemsL_get.mp he
      exact ⟨j, hF (j + 1) (by simpa using Nat.succ_lt_succ hj) e (by simpa using hmem)⟩
    rcases i with _ | i
    · have h1 : c.allElems.countP (fun e => F e == 0) = c.allElems.length := by
        rw [List.countP_eq_length]
        intro e he
        simp [hc0 e he]
      have h2 : (MemPrefixNode.allElemsL cs).countP (fun e => F e == 0) = 0 := by
        rw [List.countP_eq_zero]
        intro e he
        obtain ⟨j, hj⟩ := hmemF e he
        simp [hj]
      rw [h1, h2]
      simp
    · have h1 : c.allElems.countP (fun e => F e == (i + 1)) = 0 := by
        rw [List.countP_eq_zero]
        intro e he
        simp [hc0 e he]
      have h2 : (MemPrefixNode.allElemsL cs).countP (fun e => F e == (i + 1)) =
          (MemPrefixNode.allElemsL cs).countP (fun e => F e - 1 == i) := by
        apply List.countP_congr
        intro e he
        obtain ⟨j, hj⟩ := hmemF e he
        rw [hj]
        simp
      rw [h1, h2, ih (fun e => F e - 1) hFtail i]
      simp

theorem goodL_sum_numElements {t : MemPrefixTree} {d : ℕ} : ∀ {cs : List MemPrefixNode},
    GoodL t d cs →
    (cs.map MemPrefixNode.numElements).sum = ((MemPrefixNode.allElemsL cs).length : ℤ) := by
  intro cs
  induction cs with
  | nil =>
    intro _
    simp [MemPrefixNode.allElemsL]
  | cons c cs ih =>
    intro hgl
    rw [GoodL] at hgl
    obtain ⟨hg, hgl2⟩ := hgl
    rcases c with ⟨k, cs2, es2, ne2, sv2⟩
    rw [Good] at hg
    have hne2 := hg.2.1
    simp only [List.map_cons, List.sum_cons, MemPrefixNode.numElements,
      MemPrefixNode.allElemsL, MemPrefixNode.allElems, List.length_append]
    rw [ih hgl2, hne2]
    simp only [List.length_append]
    push_cast
    ring

/-! ## `runNode` never reads the tree's root field -/

theorem runNode_root_irrel (t : MemPrefixTree) (r : MemPrefixNode) :
    ∀ (fuel : ℕ) (cmd : Cmd),
      runNode { t with root := r } fuel cmd = runNode t fuel cmd := by
  intro fuel
  induction fuel with
  | zero => intro cmd; rfl
  | succ fuel ih =>
    intro cmd
    rcases cmd with ⟨n, z, marray, bs, depth⟩ | ⟨n, depth⟩ | ⟨n, pending, depth⟩ |
      ⟨n, z, marray, bs, depth⟩ | ⟨n⟩ <;>
      simp only [runNode, ih] <;> rfl

theorem remove_root (t : MemPrefixTree) (r : MemPrefixNode) (fuel : ℕ) (z : Zp) :
    MemPrefixTree.Remove { t with root := r } fuel z =
      (match runNode t fuel (.rem r z (t.points.map fun p => zinv (p - z)) (navOf z) 0) with
        | GoRes.ok r2 => GoRes.ok { t with root := r2 }
        | GoRes.err m r2 => GoRes.err m { t with root := r2 }
        | GoRes.panic m r2 => GoRes.panic m { t with root := r2 }
        | GoRes.hang => GoRes.hang) := by
  rw [MemPrefixTree.Remove, runNode_root_irrel]
  rfl

/-! ## The claims -/

/-- **C1** (svalue consistency, confirmed): for every initialized tree and
after every finite sequence of successful `Insert`/`Remove` calls, every node
`n` of the tree satisfies `n.svalues = svSpec points E(n)`, i.e.
`n.svalues[i] = ∏ (z ∈ E(n)), (points[i] − z)` in `Zp`, where `E(n)` is the
multiset of elements stored at or below `n`; on an empty subtree the product
is empty and every entry is `1`. -/
theorem claim_C1_svalue_consistency (t0 t : MemPrefixTree) (fuel : ℕ) (ops : List Op)
    (hreach : runOps fuel t0.Init ops = some t) :
    SvOK t.points t.root := by
  obtain ⟨-, -, -, -, -, hg, -⟩ :=
    runOps_inv ops t0.Init t (init_pts_len t0) (init_good t0) hreach
  exact Good.svOK hg

/-- Witness for C1: inserting `7` into the initialized default tree. -/
theorem claim_C1_witness :
    runOps 10 zeroTree.Init [Op.ins 7] = some wT1 ∧ SvOK wT1.points wT1.root :=
  ⟨rfl, claim_C1_svalue_consistency zeroTree wT1 10 [Op.ins 7] rfl⟩

/-- **C2** (corrected): only the *SamplePointCollision* failure is atomic —
`Insert(z)` of a sample point panics before the root is touched, returning
the tree unchanged.  The *Duplicate* and *Missing* panics happen after
`updateSvalues`/`numElements` mutations (see the counterexample). -/
theorem claim_C2_sample_point_atomic (t : MemPrefixTree) (fuel : ℕ) (z : Zp)
    (hz : z ∈ t.points) :
    t.Insert fuel z = .panic "Sample point added to elements" t := by
  rw [MemPrefixTree.Insert]
  have hnone : AddElementArray t z = none := addElementLoop_of_mem hz
  rw [hnone]

/-- Witness for C2: inserting the first sample point of the default tree. -/
theorem claim_C2_witness :
    wSample ∈ wT.points ∧
      wT.Insert 10 wSample = .panic "Sample point added to elements" wT :=
  ⟨by decide, claim_C2_sample_point_atomic wT 10 wSample (by decide)⟩

/-- Counterexample to C2 as stated: a *Duplicate* panic is not atomic — the
duplicate `Insert(7)` panics with the root's `numElements` already
incremented (`2` instead of `1`), so the tree is not "exactly as it was". -/
theorem claim_C2_counterexample :
    wT1.Insert 10 7 = .panic "Duplicate" wDup ∧
      wDup.root.numElements ≠ wT1.root.numElements :=
  ⟨rfl, by decide⟩

/-- **C3** (corrected): `Remove(Insert(T, z)) = T` bitwise does hold for a
reachable, soundly-thresholded tree and a fresh non-sample `z` — *provided
the insert did not split a leaf* (stated as preservation of the node count).
Without that proviso the round trip does not restore `T`
(see the counterexample). -/
theorem claim_C3_insert_remove_restores (t0 t t1 t2 : MemPrefixTree)
    (fuel fl fr : ℕ) (ops : List Op) (z : Zp)
    (hreach : runOps fuel t0.Init ops = some t)
    (hst : -1 ≤ (t0.Init).splitThreshold)
    (hjt : (t0.Init).joinThreshold ≤ (t0.Init).splitThreshold + 1)
    (hz : z ∉ t.points) (_hzin : z ∉ t.root.allElems)
    (hins : t.Insert fl z = .ok t1)
    (hnosplit : t1.root.countNodes = t.root.countNodes)
    (hrem : t1.Remove fr z = .ok t2) :
    t2 = t := by
  obtain ⟨-, -, -, -, -, hg, hcapi⟩ :=
    runOps_inv ops t0.Init t (init_pts_len t0) (init_good t0) hreach
  have hcap : Cap t t.root := hcapi hst hjt (init_cap t0 hst)
  rw [MemPrefixTree.Insert] at hins
  rcases hadd : AddElementArray t z with _ | marray <;> rw [hadd] at hins
  · exact absurd hins (by simp)
  simp only [] at hins
  rw [AddElementArray] at hadd
  obtain ⟨-, hm⟩ := addElementLoop_eq_some hadd
  subst hm
  rcases hrun : runNode t fl (.ins t.root z (t.points.map fun p => p - z) (navOf z) 0)
    with r | ⟨m, r⟩ | ⟨m, r⟩ | _ <;> rw [hrun] at hins
  · cases hins
    rw [remove_root] at hrem
    rcases hrun2 : runNode t fr (.rem r z (t.points.map fun p => zinv (p - z)) (navOf z) 0)
      with r2 | ⟨m2, r2⟩ | ⟨m2, r2⟩ | _ <;> rw [hrun2] at hrem
    · cases hrem
      have hres := runNode_restore t z hz fl fr t.root (navOf z) 0 r r2
        hg hcap hrun hnosplit hrun2
      rw [hres]
    · exact absurd hrem (by simp)
    · exact absurd hrem (by simp)
    · exact absurd hrem (by simp)
  · exact absurd hins (by simp)
  · exact absurd hins (by simp)
  · exact absurd hins (by simp)

/-- Witness for C3: `Insert(7)` then `Remove(7)` on the initialized default
tree returns the tree bitwise equal to the start state. -/
theorem claim_C3_witness :
    runOps 10 zeroTree.Init [] = some wT ∧
    -1 ≤ (zeroTree.Init).splitThreshold ∧
    (zeroTree.Init).joinThreshold ≤ (zeroTree.Init).splitThreshold + 1 ∧
    (7 : Zp) ∉ wT.points ∧ (7 : Zp) ∉ wT.root.allElems ∧
    wT.Insert 10 7 = .ok wT1 ∧ wT1.root.countNodes = wT.root.countNodes ∧
    wT1.Remove 10 7 = .ok wT2 ∧ wT2 = wT :=
  ⟨rfl, by decide, by decide, by decide, by decide, rfl, by decide, rfl,
    claim_C3_insert_remove_restores zeroTree wT wT1 wT2 10 10 10 [] 7 rfl
      (by decide) (by decide) (by decide) (by decide) rfl (by decide) rfl⟩

/-- Counterexample to C3 as stated: on the small-threshold tree, `Insert(7)`
splits the full root leaf and the subsequent `Remove(7)` does not undo the
split — the result has five nodes where the original tree had one, although
`7` was neither a sample point nor present. -/
theorem claim_C3_counterexample :
    runOps 20 smallTree.Init [Op.ins 4, Op.ins 5, Op.ins 6] = some wP3 ∧
    (7 : Zp) ∉ wP3.points ∧ (7 : Zp) ∉ wP3.root.allElems ∧
    wP3.Insert 20 7 = .ok wP4 ∧ wP4.Remove 20 7 = .ok wP5 ∧
    wP5.root.countNodes ≠ wP3.root.countNodes :=
  ⟨rfl, by decide, by decide, rfl, rfl, by decide⟩

/-- **C4** (split correctness, confirmed): after a successful `Insert` on a
reachable tree, every node `m` of the result at its depth `d` — in
particular a leaf freshly split by that insert — satisfies: each child's
`numElements` is the number of subtree elements whose navigation bitstring
selects that child at depth `d`, and for an internal `m` the children's
counts sum to `m.numElements`. -/
theorem claim_C4_split_counts (t0 t t' : MemPrefixTree) (fuel fl : ℕ)
    (ops : List Op) (z : Zp) (m : MemPrefixNode) (d : ℕ)
    (hreach : runOps fuel t0.Init ops = some t)
    (hins : t.Insert fl z = .ok t')
    (hsub : SubnodeAt t'.root 0 m d) :
    (∀ i, ∀ h : i < m.children.length,
      (m.children.get ⟨i, h⟩).numElements =
        ((m.allElems.countP fun e =>
          nextChildIndex (navOf e) t'.bitQuantum.toNat d == i : ℕ) : ℤ)) ∧
    (m.children ≠ [] →
      (m.children.map MemPrefixNode.numElements).sum = m.numElements) := by
  obtain ⟨-, -, -, ens, epts, hg0, -⟩ :=
    runOps_inv ops t0.Init t (init_pts_len t0) (init_good t0) hreach
  have hpts : t.points.length = t.numSamples.toNat := by
    rw [epts, ens]
    exact init_pts_len t0
  obtain ⟨-, -, -, -, -, -, hg', -, -, -⟩ := insert_ok_inv hpts hg0 hins
  have hgm : Good t' d m := good_subnode hsub hg'
  rcases m with ⟨k, cs, es, ne, sv⟩
  rw [Good] at hgm
  obtain ⟨hsv, hne, hnd, hsf, hie, hpl, hgl⟩ := hgm
  constructor
  · intro i hilt
    simp only [MemPrefixNode.children] at hilt
    have hes : es = [] := by
      apply hie
      intro hcs
      rw [hcs] at hilt
      simp at hilt
    subst hes
    have hcp := placed_countP cs
      (fun e => nextChildIndex (navOf e) t'.bitQuantum.toNat d) hpl i
    have hidx : cs[i]? = some (cs.get ⟨i, hilt⟩) := by
      rw [List.getElem?_eq_getElem hilt]
      simp [List.get_eq_getElem]
    rw [hidx] at hcp
    have hcg := (goodL_iff.mp hgl) (cs.get ⟨i, hilt⟩) (List.get_mem cs i hilt)
    show (cs.get ⟨i, hilt⟩).numElements = _
    rcases hc : cs.get ⟨i, hilt⟩ with ⟨ck, ccs, ces, cne, csv⟩
    rw [hc] at hcg hcp
    rw [Good] at hcg
    have hcne := hcg.2.1
    simp only [MemPrefixNode.numElements]
    rw [hcne]
    congr 1
    rw [show (MemPrefixNode.mk k cs [] ne sv).allElems = MemPrefixNode.allElemsL cs by
      simp [MemPrefixNode.allElems]]
    rw [hcp]
    simp [MemPrefixNode.allElems]
  · intro hcs
    simp only [MemPrefixNode.children] at hcs
    have hes : es = [] := hie hcs
    subst hes
    show (cs.map MemPrefixNode.numElements).sum = ne
    rw [goodL_sum_numElements hgl, hne]
    simp
/-- Witness for C4: the insert of `7` into the full small-threshold leaf
splits the root into four children holding one element each. -/
theorem claim_C4_witness :
    runOps 20 smallTree.Init [Op.ins 4, Op.ins 5, Op.ins 6] = some wP3 ∧
    wP3.Insert 20 7 = .ok wP4 ∧
    ((∀ i, ∀ h : i < wP4.root.children.length,
      (wP4.root.children.get ⟨i, h⟩).numElements =
        ((wP4.root.allElems.countP fun e =>
          nextChildIndex (navOf e) wP4.bitQuantum.toNat 0 == i : ℕ) : ℤ)) ∧
    (wP4.root.children ≠ [] →
      (wP4.root.children.map MemPrefixNode.numElements).sum = wP4.root.numElements)) :=
  ⟨rfl, rfl, claim_C4_split_counts smallTree wP3 wP4 20 20
    [Op.ins 4, Op.ins 5, Op.ins 6] 7 wP4.root 0 rfl rfl (SubnodeAt.refl _ _)⟩

/-- **C5** (join correctness, confirmed): whenever `join` returns normally on
a node `n`, the result holds `E(n)` (the elements of the former subtree) as
a multiset directly in `elements`, is a leaf (all descendants detached), and
the join itself modified neither `svalues` nor `numElements`. -/
theorem claim_C5_join_correct (t : MemPrefixTree) (fuel : ℕ) (n nj : MemPrefixNode)
    (hok : runNode t fuel (.join n) = .ok nj) :
    (↑nj.elements : Multiset Zp) = ↑n.allElems ∧ nj.IsLeaf = true ∧
    nj.svalues = n.svalues ∧ nj.numElements = n.numElements := by
  obtain ⟨hch, hsv, hne, hk, hel⟩ := runNode_join_ok t fuel n nj hok
  refine ⟨hel, ?_, hsv, hne⟩
  simp [MemPrefixNode.IsLeaf, hch]

/-- Witness for C5: joining a concrete two-child internal node. -/
theorem claim_C5_witness :
    runNode zeroTree 10 (.join joinNode) = .ok wJoin ∧
      ((↑wJoin.elements : Multiset Zp) = ↑joinNode.allElems ∧ wJoin.IsLeaf = true ∧
        wJoin.svalues = joinNode.svalues ∧ wJoin.numElements = joinNode.numElements) :=
  ⟨rfl, claim_C5_join_correct zeroTree 10 joinNode wJoin rfl⟩

/-- **C6** (navigation, confirmed): both child-index computations — the loop
in `Node` (starting at bit `i = d·BitQuantum`) and the loop in `NextChild`
(chunk number `d`) — equal the spec's LSB-first chunk value
`∑_j 2^j · bs[d·BitQuantum + j]`; consequently `Node` and `NextChild` select
the same child for the same bitstring and depth. -/
theorem claim_C6_navigation (bs : Bitstring) (nbq d : ℕ) :
    nextChildIndex bs nbq d = specChunk bs nbq d ∧
    nodeChildIndex bs nbq (d * nbq) = specChunk bs nbq d ∧
    nodeChildIndex bs nbq (d * nbq) = nextChildIndex bs nbq d := by
  have h1 : nextChildIndex bs nbq d = specChunk bs nbq d :=
    foldl_or_spec (fun i => bs.bit (d * nbq + i)) nbq
  have h2 : nodeChildIndex bs nbq (d * nbq) = specChunk bs nbq d :=
    foldl_or_spec (fun j => bs.bit (d * nbq + j)) nbq
  exact ⟨h1, h2, h2.trans h1.symm⟩

/-- **C7** (corrected): the *Settings* constructors (`updateDerived`, hence
`NewSettings` and `LoadSettings`) always enforce the derived relations
`SplitThreshold = ThreshMult·MBar`, `JoinThreshold = SplitThreshold/2`
(Go truncated division) and `NumSamples = MBar + 1`.  The tree's own `Init`
does *not* re-derive them (see the counterexample), so the claim's "and the
tree via MemPrefixTree.Init" part fails. -/
theorem claim_C7_derived_settings (s : Settings) (version logName : String)
    (hp rp tm bq mb gi mo : ℤ) (pa fs : List String) :
    DerivedOK s.updateDerived ∧ DerivedOK NewSettings ∧
      DerivedOK (LoadSettings version logName hp rp tm bq mb gi mo pa fs) :=
  ⟨⟨rfl, rfl, rfl⟩, ⟨rfl, rfl, rfl⟩, ⟨rfl, rfl, rfl⟩⟩

/-- Counterexample to C7 as stated: `Init` on a tree preset with `mBar = 3`
(and `numSamples` zero) yields `numSamples = 6` (the default), not
`mBar + 1 = 4`. -/
theorem claim_C7_counterexample :
    (cfgMBar3.Init).mBar = 3 ∧ (cfgMBar3.Init).numSamples ≠ (cfgMBar3.Init).mBar + 1 :=
  ⟨by decide, by decide⟩

/-- **C8** (corrected): `Init` performs no validation at all and cannot
fail — its Go signature returns nothing.  Settings violating the spec's
ranges (`BitQuantum < 1`, `MBar < 1`) are accepted verbatim: any nonzero
values, valid or not, are kept, and only zero fields are defaulted. -/
theorem claim_C8_init_no_validation (t : MemPrefixTree)
    (hbq : t.bitQuantum < 0) (hmb : t.mBar < 0) :
    (t.Init).bitQuantum = t.bitQuantum ∧ (t.Init).mBar = t.mBar := by
  have h1 : ¬ t.bitQuantum = 0 := by omega
  have h2 : ¬ t.mBar = 0 := by omega
  constructor
  · simp [MemPrefixTree.Init, h1]
  · simp [MemPrefixTree.Init, h2]

/-- Witness for C8: `Init` keeps the invalid `bitQuantum = -3`, `mBar = -2`. -/
theorem claim_C8_witness :
    cfgBad.bitQuantum < 0 ∧ cfgBad.mBar < 0 ∧
      ((cfgBad.Init).bitQuantum = cfgBad.bitQuantum ∧ (cfgBad.Init).mBar = cfgBad.mBar) :=
  ⟨by decide, by decide, claim_C8_init_no_validation cfgBad (by decide) (by decide)⟩

/-- Counterexample to C8 as stated: with `BitQuantum = -3 < 1` and
`MBar = -2 < 1` the spec demands a *ConfigError*, but `Init` completes
normally, keeping the invalid values and building the usual sample points
and fresh root. -/
theorem claim_C8_counterexample :
    cfgBad.bitQuantum < 1 ∧ cfgBad.mBar < 1 ∧
      (cfgBad.Init).bitQuantum = -3 ∧ (cfgBad.Init).mBar = -2 ∧
      (cfgBad.Init).points.length = 6 ∧ (cfgBad.Init).root.IsLeaf = true :=
  ⟨by decide, by decide, by decide, by decide, by decide, by decide⟩

/-- **C9** (implicit leaf-capacity bound, confirmed): on every tree reachable
from an initialized tree with sound thresholds
(`SplitThreshold ≥ −1`, `JoinThreshold ≤ SplitThreshold + 1`, both implied
by the spec's validation ranges) by successful public operations, every leaf
holds at most `SplitThreshold + 1` elements. -/
theorem claim_C9_leaf_capacity (t0 t : MemPrefixTree) (fuel : ℕ) (ops : List Op)
    (hst : -1 ≤ (t0.Init).splitThreshold)
    (hjt : (t0.Init).joinThreshold ≤ (t0.Init).splitThreshold + 1)
    (hreach : runOps fuel t0.Init ops = some t) :
    LeafBound t.splitThreshold t.root := by
  obtain ⟨-, -, -, -, -, -, hcapi⟩ :=
    runOps_inv ops t0.Init t (init_pts_len t0) (init_good t0) hreach
  exact Cap.leafBound (hcapi hst hjt (init_cap t0 hst))

/-- Witness for C9: the default tree after `Insert(7)`. -/
theorem claim_C9_witness :
    -1 ≤ (zeroTree.Init).splitThreshold ∧
    (zeroTree.Init).joinThreshold ≤ (zeroTree.Init).splitThreshold + 1 ∧
    runOps 10 zeroTree.Init [Op.ins 7] = some wT1 ∧
    LeafBound wT1.splitThreshold wT1.root :=
  ⟨by decide, by decide, rfl,
    claim_C9_leaf_capacity zeroTree wT1 10 [Op.ins 7] (by decide) (by decide) rfl⟩

/-- **C10** (implicit, confirmed): the public error channel is dead — for
every input, `Insert`, `Remove`, `Root` and `Node(bs)` never return a
non-`nil` error: the spec's error kinds surface as panics, and `Node`'s
"Unexpected leaf node" branch is unreachable because the loop condition
already excludes leaves. -/
theorem claim_C10_no_returned_errors (t : MemPrefixTree) (fuel : ℕ) (z : Zp)
    (bs : Bitstring) (msg : String) :
    (∀ t', t.Insert fuel z ≠ .err msg t') ∧ (∀ t', t.Remove fuel z ≠ .err msg t') ∧
    t.Root ≠ NodeRes.err msg ∧ t.Node fuel bs ≠ NodeRes.err msg := by
  refine ⟨?_, ?_, ?_, ?_⟩
  · intro t' h
    rw [MemPrefixTree.Insert] at h
    rcases hadd : AddElementArray t z with _ | marray <;> rw [hadd] at h
    · exact absurd h (by simp)
    · simp only [] at h
      rcases hrun : runNode t fuel (.ins t.root z marray (navOf z) 0)
        with r | ⟨m, r⟩ | ⟨m, r⟩ | _ <;> rw [hrun] at h
      · exact absurd h (by simp)
      · exact absurd hrun (runNode_no_err t fuel _ m r)
      · exact absurd h (by simp)
      · exact absurd h (by simp)
  · intro t' h
    rw [MemPrefixTree.Remove] at h
    rcases hrun : runNode t fuel (.rem t.root z (DelElementArray t z) (navOf z) 0)
      with r | ⟨m, r⟩ | ⟨m, r⟩ | _ <;> rw [hrun] at h
    · exact absurd h (by simp)
    · exact absurd hrun (runNode_no_err t fuel _ m r)
    · exact absurd h (by simp)
    · exact absurd h (by simp)
  · intro h
    exact NodeRes.noConfusion h
  · intro h
    exact nodeLoop_no_err t fuel t.root bs 0 msg h
